import Mathlib

/-!
Verification of the doc-audit ingestion / deindexing core.

The Python sources under `docaudit/` are shallowly embedded below:
`docaudit/ml/converters.py` (DOCX parser, converters, metadata merging,
location removal), `docaudit/ml/pipelines.py` (indexing / deindexing
pipelines and the index-membership checks) and
`docaudit/endpoints/sources.py` (source-status broker and the HTTP-facing
source handlers).  External collaborators (the haystack cleaner/splitter,
the embedding model and the vector store) are modelled from their
documented contracts, as noted on each such definition.
-/

namespace DocAudit

/-! ### The metadata value universe

Document metadata in the Python code is a dict of strings, tuples, lists
and nested dicts.  We embed that fragment of the Python value universe as
a family of mutual inductives so that all recursions over it are
structural (and therefore compute inside the kernel): `Value` for values,
`VList` for the spine of tuples and lists, `VDict` for insertion-ordered
dicts.  `vtup` models Python tuples, for which `isinstance(x, list)` is
false, separately from `vlist` (lists). -/

mutual

inductive Value where
  | prim : String → Value
  | vtup : VList → Value
  | vlist : VList → Value
  | vdict : VDict → Value
deriving Repr, DecidableEq

inductive VList where
  | nil : VList
  | cons : Value → VList → VList
deriving Repr, DecidableEq

inductive VDict where
  | nil : VDict
  | cons : String → Value → VDict → VDict
deriving Repr, DecidableEq

end

/-- Python list concatenation `l1 + l2` on the embedded list spine. -/
def VList.append : VList → VList → VList
  | .nil, l2 => l2
  | .cons x xs, l2 => .cons x (xs.append l2)

/-- View of an embedded list as a Lean list. -/
def VList.toList : VList → List Value
  | .nil => []
  | .cons x xs => x :: xs.toList

/-- Inverse of `VList.toList`. -/
def VList.ofList : List Value → VList
  | [] => .nil
  | x :: xs => .cons x (ofList xs)

/-- Python dict lookup (`d[key]` / `d.get(key)` / `key in d`): the value of
the first entry with the given key. -/
def VDict.lookup (k : String) : VDict → Option Value
  | .nil => none
  | .cons k2 v rest => if k2 = k then some v else rest.lookup k

/-- Python dict assignment `d[key] = v`: replaces the value in place if the
key exists, otherwise appends the new entry at the end. -/
def VDict.set (k : String) (v : Value) : VDict → VDict
  | .nil => .cons k v .nil
  | .cons k2 w rest => if k2 = k then .cons k2 v rest else .cons k2 w (rest.set k v)

/-- Concatenation of dict entry lists (used to assemble merge results). -/
def VDict.append : VDict → VDict → VDict
  | .nil, d2 => d2
  | .cons k v rest, d2 => .cons k v (rest.append d2)

/-- Keys of a dict, in entry order. -/
def VDict.keys : VDict → List String
  | .nil => []
  | .cons k _ rest => k :: rest.keys

/-- View of an embedded dict as a Lean association list. -/
def VDict.entries : VDict → List (String × Value)
  | .nil => []
  | .cons k v rest => (k, v) :: rest.entries

/-! ### `recursively_merge_dicts` (converters.py, lines 164-184)

Python iterates the unordered key set `d1.keys() | d2.keys()` and builds a
dict mapping every key to: the recursive merge when both values are dicts,
the left-then-right concatenation when both values are lists, the left
value when the key is shared but the values are anything else (including
tuples, which fail `isinstance(x, list)`), and the present side's value
when the key is in only one dict.  Python dict equality is
order-insensitive, so we fix the canonical entry order: `d1`'s keys first,
then the keys appearing only in `d2`. -/

/-- Entries of `d2` whose key does not occur in `d1` (the `else` branch
`merged[key] = d2[key]` of `recursively_merge_dicts`). -/
def restOnly (d1 : VDict) : VDict → VDict
  | .nil => .nil
  | .cons k v rest =>
      if (d1.lookup k).isNone then .cons k v (restOnly d1 rest)
      else restOnly d1 rest

mutual

/-- Value-level merge rule of `recursively_merge_dicts` for a key present
in both dicts. -/
def mergeVal : Value → Value → Value
  | .vdict m1, .vdict m2 => .vdict (VDict.append (mergeLeft m1 m2) (restOnly m1 m2))
  | .vlist l1, .vlist l2 => .vlist (l1.append l2)
  | v1, _ => v1

/-- `d1`'s entries, each merged with `d2`'s value when the key is shared. -/
def mergeLeft : VDict → VDict → VDict
  | .nil, _ => .nil
  | .cons k v rest, d2 =>
      .cons k
        (match d2.lookup k with
         | some w => mergeVal v w
         | none => v)
        (mergeLeft rest d2)

end

/-- `recursively_merge_dicts` from converters.py: `d1`'s keys in order
(merged against `d2` where shared), followed by the keys only in `d2`. -/
def recursively_merge_dicts (d1 d2 : VDict) : VDict :=
  VDict.append (mergeLeft d1 d2) (restOnly d1 d2)

theorem mergeVal_dict (m1 m2 : VDict) :
    mergeVal (.vdict m1) (.vdict m2) = .vdict (recursively_merge_dicts m1 m2) := rfl

theorem mergeVal_list (l1 l2 : VList) :
    mergeVal (.vlist l1) (.vlist l2) = .vlist (l1.append l2) := rfl

example :
    recursively_merge_dicts
      (.cons "a" (.prim "x") (.cons "l" (.vlist (.cons (.prim "1") .nil)) .nil))
      (.cons "l" (.vlist (.cons (.prim "2") .nil)) (.cons "b" (.prim "y") .nil)) =
      (.cons "a" (.prim "x")
        (.cons "l" (.vlist (.cons (.prim "1") (.cons (.prim "2") .nil)))
          (.cons "b" (.prim "y") .nil))) := by
  decide

/-! ### Documents

The haystack `Document` fragment this code base uses: an id, textual
content, an optional embedding vector and a metadata dict.  Embeddings are
produced by the external sentence-transformers model, a black box from the
spec's point of view; they are carried as opaque `List Int` payloads. -/

instance : Inhabited Value := ⟨.prim ""⟩

instance : Inhabited VList := ⟨.nil⟩

instance : Inhabited VDict := ⟨.nil⟩

structure Doc where
  id : String
  content : String
  embedding : Option (List Int)
  meta : VDict
deriving Repr, DecidableEq

instance : Inhabited Doc := ⟨⟨"", "", none, .nil⟩⟩

/-! ### `MergeMetadata` (converters.py, lines 187-215) -/

/-- One step of building `id_to_documents`:
`id_to_documents.setdefault(doc.id, []).append(doc)`.  The first document
of a fresh id opens a new group at the end of the insertion-ordered map;
later documents with the same id are appended to their group. -/
def groupInsert (m : List (String × List Doc)) (d : Doc) : List (String × List Doc) :=
  match m with
  | [] => [(d.id, [d])]
  | (k, g) :: rest =>
      if k = d.id then (k, g ++ [d]) :: rest else (k, g) :: groupInsert rest d

/-- Merging one group: keep the first document (its content and embedding
untouched) and fold `recursively_merge_dicts` over the metadata of the
rest.  Groups built by `groupInsert` are never empty; the `[]` case is
unreachable. -/
def mergeGroup : List Doc → Doc
  | [] => default
  | d :: ds =>
      { d with meta := ds.foldl (fun m e => recursively_merge_dicts m e.meta) d.meta }

/-- `MergeMetadata.run`: group the concatenation of the variadic input
lists by id (first-seen order) and merge each group. -/
def mergeMetadataRun (dss : List (List Doc)) : List Doc :=
  ((dss.flatten).foldl groupInsert []).map (fun kg => mergeGroup kg.2)

/-! ### SHA-256 and `SetContentBasedIds` (converters.py, lines 142-161)

`SetContentBasedIds.run` assigns
`doc.id = hashlib.sha256(doc.content.encode("utf-8")).hexdigest()`.
`hashlib.sha256` is the standard SHA-256 (FIPS 180-4); it is implemented
here over `Nat` with explicit `% 2^32` reductions. -/

/-- UTF-8 encoding of one code point (`str.encode("utf-8")`). -/
def utf8Char (c : Char) : List Nat :=
  let n := c.toNat
  if n < 128 then [n]
  else if n < 2048 then [192 + n / 64, 128 + n % 64]
  else if n < 65536 then [224 + n / 4096, 128 + (n / 64) % 64, 128 + n % 64]
  else [240 + n / 262144, 128 + (n / 4096) % 64, 128 + (n / 64) % 64, 128 + n % 64]

/-- UTF-8 encoding of a string as a byte list. -/
def utf8Encode (s : String) : List Nat := (s.data.map utf8Char).flatten

/-- Truncation to a 32-bit word. -/
def w32 (x : Nat) : Nat := x % 4294967296

/-- Logical right shift within 32 bits. -/
def shaShr (x n : Nat) : Nat := x / 2 ^ n

/-- Right rotation of a 32-bit word. -/
def rotr (x n : Nat) : Nat := w32 (x / 2 ^ n + x % 2 ^ n * 2 ^ (32 - n))

def shaCh (e f g : Nat) : Nat := (e &&& f) ^^^ ((4294967295 - w32 e) &&& g)

def shaMaj (a b c : Nat) : Nat := (a &&& b) ^^^ (a &&& c) ^^^ (b &&& c)

def bigSigma0 (a : Nat) : Nat := rotr a 2 ^^^ rotr a 13 ^^^ rotr a 22

def bigSigma1 (e : Nat) : Nat := rotr e 6 ^^^ rotr e 11 ^^^ rotr e 25

def smallSigma0 (x : Nat) : Nat := rotr x 7 ^^^ rotr x 18 ^^^ shaShr x 3

def smallSigma1 (x : Nat) : Nat := rotr x 17 ^^^ rotr x 19 ^^^ shaShr x 10

/-- Round constants 0-15 (fractional parts of cube roots of
primes, FIPS 180-4), as decimal word values. -/
def shaKa : List Nat :=
  [1116352408, 1899447441, 3049323471, 3921009573,
   961987163, 1508970993, 2453635748, 2870763221,
   3624381080, 310598401, 607225278, 1426881987,
   1925078388, 2162078206, 2614888103, 3248222580]

/-- Round constants 16-31 (fractional parts of cube roots of
primes, FIPS 180-4), as decimal word values. -/
def shaKb : List Nat :=
  [3835390401, 4022224774, 264347078, 604807628,
   770255983, 1249150122, 1555081692, 1996064986,
   2554220882, 2821834349, 2952996808, 3210313671,
   3336571891, 3584528711, 113926993, 338241895]

/-- Round constants 32-47 (fractional parts of cube roots of
primes, FIPS 180-4), as decimal word values. -/
def shaKc : List Nat :=
  [666307205, 773529912, 1294757372, 1396182291,
   1695183700, 1986661051, 2177026350, 2456956037,
   2730485921, 2820302411, 3259730800, 3345764771,
   3516065817, 3600352804, 4094571909, 275423344]

/-- Round constants 48-63 (fractional parts of cube roots of
primes, FIPS 180-4), as decimal word values. -/
def shaKd : List Nat :=
  [430227734, 506948616, 659060556, 883997877,
   958139571, 1322822218, 1537002063, 1747873779,
   1955562222, 2024104815, 2227730452, 2361852424,
   2428436474, 2756734187, 3204031479, 3329325298]

/-- The 64 SHA-256 round constants. -/
def shaK : List Nat := shaKa ++ shaKb ++ shaKc ++ shaKd

/-- The initial SHA-256 state (fractional parts of square roots of the
first eight primes), as decimal word values. -/
def shaH0 : List Nat :=
  [1779033703, 3144134277, 1013904242, 2773480762,
   1359893119, 2600822924, 528734635, 1541459225]

/-- Big-endian byte serialisation of a number into the given width. -/
def beBytes : Nat → Nat → List Nat
  | 0, _ => []
  | n+1, x => beBytes n (x / 256) ++ [x % 256]

/-- SHA-256 message padding: append `0x80`, zero bytes up to 56 mod 64,
then the bit length as an 8-byte big-endian number. -/
def shaPad (msg : List Nat) : List Nat :=
  let l := msg.length
  let k := (64 + 56 - (l + 1) % 64) % 64
  msg ++ [128] ++ List.replicate k 0 ++ beBytes 8 (l * 8)

/-- Big-endian 32-bit words of a byte list. -/
def toWords : List Nat → List Nat
  | b1 :: b2 :: b3 :: b4 :: rest =>
      (((b1 * 256 + b2) * 256 + b3) * 256 + b4) :: toWords rest
  | _ => []

/-- Split a word list into blocks of 16 words (padded SHA-256 messages are
always an exact multiple of 16 words; the catch-all keeps any short tail,
matching slice-based chunking). -/
def chunk16 : List Nat → List (List Nat)
  | a1 :: a2 :: a3 :: a4 :: a5 :: a6 :: a7 :: a8 ::
    a9 :: a10 :: a11 :: a12 :: a13 :: a14 :: a15 :: a16 :: rest =>
      [a1, a2, a3, a4, a5, a6, a7, a8, a9, a10, a11, a12, a13, a14, a15, a16] ::
        chunk16 rest
  | [] => []
  | other => [other]

/-- Iterate a function `n` times. -/
def iterateF (f : α → α) : Nat → α → α
  | 0, a => a
  | n+1, a => iterateF f n (f a)

/-- Append the next word of the SHA-256 message schedule. -/
def scheduleStep (ws : List Nat) : List Nat :=
  let i := ws.length
  ws ++ [w32 (smallSigma1 (ws.getD (i - 2) 0) + ws.getD (i - 7) 0 +
    smallSigma0 (ws.getD (i - 15) 0) + ws.getD (i - 16) 0)]

/-- Extend a 16-word block to the full 64-word schedule. -/
def schedule (ws : List Nat) : List Nat := iterateF scheduleStep 48 ws

/-- One SHA-256 compression round. -/
def compressStep (st : List Nat) (kw : Nat × Nat) : List Nat :=
  match st with
  | [a, b, c, d, e, f, g, h] =>
      let t1 := w32 (h + bigSigma1 e + shaCh e f g + kw.1 + kw.2)
      let t2 := w32 (bigSigma0 a + shaMaj a b c)
      [w32 (t1 + t2), a, b, c, w32 (d + t1), e, f, g]
  | other => other

/-- Compress one block into the running state. -/
def compressBlock (st : List Nat) (block : List Nat) : List Nat :=
  let final := (List.zip shaK (schedule block)).foldl compressStep st
  List.zipWith (fun x y => w32 (x + y)) st final

/-- SHA-256 digest (32 bytes) of a byte list. -/
def sha256Bytes (msg : List Nat) : List Nat :=
  (((chunk16 (toWords (shaPad msg))).foldl compressBlock shaH0).map
    (beBytes 4)).flatten

/-- Lowercase hexadecimal digit. -/
def hexNib (n : Nat) : Char :=
  "0123456789abcdef".data.getD n (Char.ofNat 48)

/-- Lowercase hexadecimal encoding of one byte. -/
def hexByte (n : Nat) : List Char := [hexNib (n / 16), hexNib (n % 16)]

/-- `hashlib.sha256(s.encode("utf-8")).hexdigest()`. -/
def sha256_hex (s : String) : String :=
  String.mk (((sha256Bytes (utf8Encode s)).map hexByte).flatten)

/-- `SetContentBasedIds.run` (converters.py, lines 142-161): overwrite every
document id with the content hash. -/
def setContentBasedIds (documents : List Doc) : List Doc :=
  documents.map (fun d => { d with id := sha256_hex d.content })

example :
    sha256_hex "abc" =
      "ba7816bf8f01cfea414140de5dae2223b00361a396177a9cb410ff61f20015ad" := by
  decide

/-! ### The DOCX parser (converters.py, lines 36-82) -/

/-- Python regex whitespace `\s` over the ASCII range this code handles. -/
def isSpaceChar (c : Char) : Bool :=
  c = ' ' ∨ c = '\t' ∨ c = '\n' ∨ c = '\r' ∨ c.toNat = 11 ∨ c.toNat = 12

/-- Collapse every maximal whitespace run to one space (the flag records
whether the previous character was part of a run). -/
def collapseGo : Bool → List Char → List Char
  | _, [] => []
  | inRun, c :: rest =>
      if isSpaceChar c then
        (if inRun then [] else [' ']) ++ collapseGo true rest
      else c :: collapseGo false rest

/-- Python `str.strip()` on a character list. -/
def stripChars (l : List Char) : List Char :=
  ((l.dropWhile isSpaceChar).reverse.dropWhile isSpaceChar).reverse

/-- `remove_extra_whitespace` (utils.py):
`re.sub(r"\s+", " ", text).strip()`. -/
def remove_extra_whitespace (s : String) : String :=
  String.mk (stripChars (collapseGo false s.data))

def digitsToNat (l : List Char) : Nat :=
  l.foldl (fun a c => a * 10 + (c.toNat - 48)) 0

/-- Match `Heading (\d+)` at the start of the character list: the literal
prefix `Heading ` followed by at least one digit (taken greedily). -/
def headingNum (l : List Char) : Option Nat :=
  match l with
  | 'H' :: 'e' :: 'a' :: 'd' :: 'i' :: 'n' :: 'g' :: ' ' :: cs =>
      let ds := cs.takeWhile Char.isDigit
      if ds.isEmpty then none else some (digitsToNat ds)
  | _ => none

/-- Leftmost match of `re.search(r"Heading (\d+)", style)`. -/
def parseLevelChars : List Char → Option Nat
  | [] => none
  | c :: rest =>
      match headingNum (c :: rest) with
      | some n => some n
      | none => parseLevelChars rest

/-- `DocxParser.parse_level`: the captured heading level, or `none` for a
non-heading paragraph. -/
def parse_level (style : String) : Option Nat := parseLevelChars style.data

/-- One paragraph of an opened DOCX, as the parser sees it: a style name
and its text. -/
structure Para where
  style : String
  text : String
deriving Repr, DecidableEq

/-- An upload handed to `docx.Document`: either it opens to a paragraph
stream or the library raises (carrying a reason). -/
inductive Docx where
  | ok : List Para → Docx
  | failed : String → Docx
deriving Repr, DecidableEq

/-- `DocxParser.open_docx_carefully`: wrap any opening failure in a
`DocxParserError` carrying the underlying reason. -/
def open_docx_carefully : Docx → Except String (List Para)
  | .ok ps => .ok ps
  | .failed e => .error ("Failed to open DOCX file. Error: " ++ e)

/-- The generator loop of `DocxParser.parse`: on a heading of level `L`,
yield the accumulated `(headers, contents)` section, truncate the header
stack to `L - 1` entries, push the heading text and restart the contents
with it; on a body paragraph, append its text; at end of document, yield
the final section.  Contents are joined with a blank line (`"\n" * 2`). -/
def parseGo (headers : List String) (contents : List String) :
    List Para → List (List String × String)
  | [] => [(headers, String.intercalate "\n\n" contents)]
  | p :: rest =>
      let ptext := remove_extra_whitespace p.text
      match parse_level p.style with
      | some lvl =>
          (headers, String.intercalate "\n\n" contents) ::
            parseGo (headers.take (lvl - 1) ++ [ptext]) [ptext] rest
      | none => parseGo headers (contents ++ [ptext]) rest

/-- `DocxParser.parse`: the list of `(heading path, body text)` sections of
a document, or the opening error. -/
def DocxParser_parse (d : Docx) : Except String (List (List String × String)) :=
  (open_docx_carefully d).map (parseGo [] [])

/-! ### `DocxToDocuments` (converters.py, lines 85-139) -/

/-- `iter_sources`: pad missing source ids with fresh UUIDs (`fresh` is the
`new_source_id` oracle), truncate extra ones, and pair positionally. -/
def iter_sources (fresh : Nat → String) (sources : List Docx)
    (source_ids : Option (List String)) : List (Docx × String) :=
  let sids := source_ids.getD []
  let sids2 :=
    if sids.length < sources.length then
      sids ++ (List.range (sources.length - sids.length)).map fresh
    else sids.take sources.length
  sources.zip sids2

/-- The location record a parsed section contributes:
`{"id": source_id, "type": "docx", "path": headers}` (the path is a Python
tuple). -/
def mkLocation (sid : String) (headers : List String) : Value :=
  .vdict (.cons "id" (.prim sid)
    (.cons "type" (.prim "docx")
      (.cons "path" (.vtup (VList.ofList (headers.map Value.prim))) .nil)))

/-- The document built for one parsed section: content is the section
text, meta is `{**(meta or \x7b\x7d), "locations": [location]}`. -/
def sectionDoc (meta0 : VDict) (sid : String) (sec : List String × String) : Doc :=
  { id := "", content := sec.2, embedding := none,
    meta := meta0.set "locations" (.vlist (.cons (mkLocation sid sec.1) .nil)) }

/-- `DocxToDocuments.run`: convert each (source, id) pair; a source whose
parse raises contributes no documents but a logged warning, and the
remaining sources are still converted.  Returns (documents, warnings). -/
def docxToDocuments (fresh : Nat → String) (sources : List Docx)
    (source_ids : Option (List String)) (meta0 : VDict) :
    List Doc × List String :=
  (iter_sources fresh sources source_ids).foldl
    (fun acc sp =>
      match DocxParser_parse sp.1 with
      | .ok secs => (acc.1 ++ secs.map (sectionDoc meta0 sp.2), acc.2)
      | .error e =>
          (acc.1, acc.2 ++ ["Failed to convert DOCX file. Skipping it. Error: " ++ e]))
    ([], [])

/-! ### Cleaner and splitter

Both are external haystack components (`DocumentCleaner`,
`DocumentSplitter`), configured in `get_indexing_pipeline`
(pipelines.py, lines 98-107); they are modelled from the spec. -/

/-- Split a character list at newlines. -/
def splitOnNl : List Char → List (List Char)
  | [] => [[]]
  | c :: rest =>
      match splitOnNl rest with
      | [] => if c = '\n' then [[], []] else [[c]]
      | h :: t => if c = '\n' then [] :: h :: t else (c :: h) :: t

/-- Modelled from the spec: the haystack `DocumentCleaner` with
`remove_empty_lines=True, remove_extra_whitespaces=True,
remove_repeated_substrings=False` — remove whitespace-only lines, collapse
every whitespace run to a single space and strip the ends. -/
def cleanText (s : String) : String :=
  let ls := (splitOnNl s.data).filter (fun l => ¬ l.all isSpaceChar)
  String.mk (stripChars (collapseGo false (List.intercalate ['\n'] ls)))

/-- The cleaner maps over documents, touching only their content. -/
def cleanDocs (docs : List Doc) : List Doc :=
  docs.map (fun d => { d with content := cleanText d.content })

/-- Whitespace tokenisation (the accumulator holds the current word,
reversed). -/
def tokenizeGo : List Char → List Char → List String
  | cur, [] => if cur.isEmpty then [] else [String.mk cur.reverse]
  | cur, c :: rest =>
      if isSpaceChar c then
        if cur.isEmpty then tokenizeGo [] rest
        else String.mk cur.reverse :: tokenizeGo [] rest
      else tokenizeGo (c :: cur) rest

/-- The whitespace-delimited words of a string. -/
def wordsOf (s : String) : List String := tokenizeGo [] s.data

/-- Zero-overlap windows: `cap` is the remaining capacity of the open
window, `cur` its words (reversed). -/
def windowsGo : Nat → List String → List String → List (List String)
  | _, cur, [] => if cur.isEmpty then [] else [cur.reverse]
  | cap, cur, w :: rest =>
      match cap with
      | 0 => cur.reverse :: windowsGo 99 [w] rest
      | cap2+1 => windowsGo cap2 (w :: cur) rest

/-- Modelled from the spec: the haystack `DocumentSplitter` with
`split_by="word", split_length=100, split_overlap=0` — break each body
into 100-word windows (the final window may be shorter; a body shorter
than one window is emitted whole; a body with no words yields no
windows). -/
def splitDocs (docs : List Doc) : List Doc :=
  docs.flatMap (fun d =>
    (windowsGo 100 [] (wordsOf d.content)).map
      (fun ws => { d with content := String.intercalate " " ws }))

/-! ### The vector store

Qdrant is an external service.  Its contract (spec section 6: records
keyed by id, filter by id-in-set, filter by `meta.locations[].id`,
streaming scan under a filter, writes with the FAIL and OVERWRITE
duplicate policies) is modelled from the spec as a list of records with
distinct ids. -/

abbrev Store := List Doc

/-- Generic first-match association-list lookup. -/
def assocLookup {α : Type} (k : String) : List (String × α) → Option α
  | [] => none
  | (k2, v) :: rest => if k2 = k then some v else assocLookup k rest

/-- `doc.meta.get("locations", [])`: the locations list of a document
(empty when the key is absent; a non-list value is out of the data model
and also reads as empty). -/
def docLocations (d : Doc) : List Value :=
  match d.meta.lookup "locations" with
  | some (.vlist l) => l.toList
  | _ => []

/-- `location["id"]` when the location is a dict with a string id. -/
def locId (v : Value) : Option String :=
  match v with
  | .vdict m =>
      match m.lookup "id" with
      | some (.prim s) => some s
      | _ => none
  | _ => none

/-- Membership of a location's id in a source-id set. -/
def locIdIn (S : List String) (loc : Value) : Bool :=
  match locId loc with
  | some i => S.contains i
  | none => false

/-- Modelled from the spec: the store filter
`meta.locations[].id in S` (also `== s` via a singleton set). -/
def matchesLocFilter (S : List String) (d : Doc) : Bool :=
  (docLocations d).any (locIdIn S)

/-- Modelled from the spec: the store filter `id in ids`
(`filter_documents(dict(field="id", operator="in", value=ids))`). -/
def filterByIdIn (st : Store) (ids : List String) : Store :=
  st.filter (fun d => ids.contains d.id)

/-- Modelled from the spec: one OVERWRITE-policy upsert — replace the
record with the same id, or append the new record. -/
def overwriteDoc (st : Store) (d : Doc) : Store :=
  if st.any (fun e => e.id = d.id) then
    st.map (fun e => if e.id = d.id then d else e)
  else st ++ [d]

/-- The OVERWRITE-policy `DocumentWriter`. -/
def overwriteDocs (st : Store) (docs : List Doc) : Store :=
  docs.foldl overwriteDoc st

/-- Modelled from the spec: the FAIL-policy `DocumentWriter` — refuse the
write when any id already exists. -/
def writeFailDocs (st : Store) (docs : List Doc) : Except String Store :=
  docs.foldlM
    (fun s d =>
      if s.any (fun e => e.id = d.id) then Except.error "DuplicateDocumentError"
      else Except.ok (s ++ [d]))
    st

/-! ### `DuplicateChecker` (converters.py, lines 218-261) -/

/-- Batching of a list (`documents[i : i + batch_size]` for `i` in steps of
`batch_size`): `cap` is the remaining capacity of the open batch, `cur` its
elements (reversed). -/
def chunksGo (bs : Nat) : Nat → List α → List α → List (List α)
  | _, cur, [] => if cur.isEmpty then [] else [cur.reverse]
  | cap, cur, x :: rest =>
      match cap with
      | 0 => cur.reverse :: chunksGo bs (bs - 1) [x] rest
      | cap2+1 => chunksGo bs cap2 (x :: cur) rest

/-- Split a list into batches of `bs` (the last may be shorter). -/
def chunks (bs : Nat) (l : List α) : List (List α) := chunksGo bs bs [] l

/-- `DuplicateChecker.run`: in batches, query the store for the batch's
ids and partition the batch into hits (id present) and misses (id
absent); `retrieved` collects the store records returned.  Returns
`(retrieved, hits, misses)`. -/
def duplicateChecker (st : Store) (bs : Nat) (documents : List Doc) :
    List Doc × List Doc × List Doc :=
  (chunks bs documents).foldl
    (fun acc batch =>
      let existing := filterByIdIn st (batch.map Doc.id)
      (acc.1 ++ existing,
       acc.2.1 ++ batch.filter (fun d => existing.any (fun e => e.id = d.id)),
       acc.2.2 ++ batch.filter (fun d => ¬ existing.any (fun e => e.id = d.id))))
    ([], [], [])

/-! ### Embedder, indexing pipeline (pipelines.py, lines 92-149, 184-189) -/

/-- Modelled from the spec: the external sentence-transformers document
embedder — set each document's embedding from its content; ids, contents
and metadata are untouched.  The model itself is a black box, passed in as
`embed`. -/
def embedDocs (embed : String → List Int) (docs : List Doc) : List Doc :=
  docs.map (fun d => { d with embedding := some (embed d.content) })

/-- `run_indexing_pipeline` / `get_indexing_pipeline`: the DAG
`docx_converter → cleaner → splitter → content_ids → content_merger →
duplicate_checker → {(retrieved, hits) → duplicate_merger → overwriter ;
misses → embedder → writer}`.  The conversion warnings are logged and do
not reach the store.  Returns the final store (the FAIL-policy write
surfaces as the error case). -/
def runIndexing (embed : String → List Int) (fresh : Nat → String) (bs : Nat)
    (sources : List Docx) (source_ids : Option (List String)) (st : Store) :
    Except String Store :=
  let conv := docxToDocuments fresh sources source_ids .nil
  let docs3 := setContentBasedIds (splitDocs (cleanDocs conv.1))
  let docs4 := mergeMetadataRun [docs3]
  let dc := duplicateChecker st bs docs4
  let merged := mergeMetadataRun [dc.1, dc.2.1]
  let st1 := overwriteDocs st merged
  writeFailDocs st1 (embedDocs embed dc.2.2)

/-! ### `LocationRemover` and the deindexing pipeline
(converters.py, lines 264-289; pipelines.py, lines 152-168, 192-199) -/

/-- `LocationRemover.run`: with no source ids, pass documents through;
otherwise rewrite each document's `meta["locations"]`, dropping the
entries whose id is in the set. -/
def locationRemover (source_ids : Option (List String)) (docs : List Doc) :
    List Doc :=
  match source_ids with
  | none => docs
  | some S =>
      docs.map (fun d =>
        let kept := (docLocations d).filter (fun loc => ¬ locIdIn S loc)
        { d with meta := d.meta.set "locations" (.vlist (VList.ofList kept)) })

/-- `run_deindexing_pipeline`: retrieve every record matching
`meta.locations[].id ∈ S`, strip those locations, overwrite the records
back. -/
def runDeindexing (S : List String) (st : Store) : Store :=
  overwriteDocs st (locationRemover (some S) (st.filter (matchesLocFilter S)))

/-! ### `is_indexed` / `are_indexed` (pipelines.py, lines 202-221) -/

/-- `is_indexed`: whether any stored record's locations carry the id. -/
def is_indexed (st : Store) (sid : String) : Bool :=
  ¬ (st.filter (matchesLocFilter [sid])).isEmpty

/-- The location ids of a document. -/
def locIdsOfDoc (d : Doc) : List String := (docLocations d).filterMap locId

/-- The scan loop of `are_indexed`: walk the matching records, discard
every location id seen from the missing set, stop early once it is
empty. -/
def areIndexedGo (missing : List String) : List Doc → List String
  | [] => missing
  | d :: rest =>
      let m2 := missing.filter (fun sid => ¬ (locIdsOfDoc d).contains sid)
      if m2.isEmpty then m2 else areIndexedGo m2 rest

/-- `are_indexed`: one filtered scan answering membership for a batch of
source ids (empty input short-circuits to an empty answer). -/
def are_indexed (st : Store) (source_ids : List String) : List (String × Bool) :=
  if source_ids.isEmpty then []
  else
    let missing := areIndexedGo source_ids (st.filter (matchesLocFilter source_ids))
    source_ids.map (fun sid => (sid, ¬ missing.contains sid))

/-! ### `SourceStatusBroker` (endpoints/sources.py, lines 42-106)

The broker's in-flight map, with the five status strings of the source:
`"waiting"`, `"aborted"`, `"indexing"`, `"indexed"`, `"not found"`. -/

abbrev StatusMap := List (String × String)

/-- Python dict assignment on the status map. -/
def smSet (k v : String) : StatusMap → StatusMap
  | [] => [(k, v)]
  | (k2, w) :: rest => if k2 = k then (k2, v) :: rest else (k2, w) :: smSet k v rest

/-- Python `del` (ignoring `KeyError` as `set_completed` does). -/
def smDel (k : String) : StatusMap → StatusMap
  | [] => []
  | (k2, w) :: rest => if k2 = k then rest else (k2, w) :: smDel k rest

/-- `get_status`: the in-flight entry if present, otherwise the derived
state from the store — `"indexed"` when some record references the id,
else `"not found"`. -/
def get_status (m : StatusMap) (st : Store) (sid : String) : String :=
  match assocLookup sid m with
  | some s => s
  | none => if is_indexed st sid then "indexed" else "not found"

/-- `get_statusses`: in-flight entries answered from the map, the rest
derived in one batched `are_indexed` round trip. -/
def get_statusses (m : StatusMap) (st : Store) (source_ids : List String) :
    List (String × String) :=
  let missingIds := source_ids.filter (fun sid => (assocLookup sid m).isNone)
  let ai := are_indexed st missingIds
  source_ids.map (fun sid =>
    (sid, match assocLookup sid m with
          | some s => s
          | none =>
              match assocLookup sid ai with
              | some b => if b then "indexed" else "not found"
              | none => "not found"))

/-- `set_waiting` (defined on the broker but never called anywhere in the
code base). -/
def set_waiting (m : StatusMap) (sid : String) : StatusMap := smSet sid "waiting" m

/-- `set_aborted`: a no-op unless the current entry is `"waiting"`. -/
def set_aborted (m : StatusMap) (sid : String) : StatusMap :=
  if assocLookup sid m = some "waiting" then smSet sid "aborted" m else m

/-- `set_indexing`: a no-op unless the current entry is `"waiting"`. -/
def set_indexing (m : StatusMap) (sid : String) : StatusMap :=
  if assocLookup sid m = some "waiting" then smSet sid "indexing" m else m

/-- `set_completed`: drop the entry unconditionally. -/
def set_completed (m : StatusMap) (sid : String) : StatusMap := smDel sid m

/-! ### The source endpoints (endpoints/sources.py, lines 109-187) -/

structure SysState where
  store : Store
  broker : StatusMap
deriving Repr, DecidableEq

/-- The `index_source` handler (POST `/sources`, lines 109-132): it
schedules `index_in_background` and immediately returns the response
status `"indexing"`.  As the code stands it performs no broker update —
`set_waiting` is never called. -/
def postSource (σ : SysState) : SysState × String := (σ, "indexing")

/-- `index_in_background` (lines 117-129), run once the worker acquires
the store-write mutex: if the broker reports `"aborted"` the worker only
clears the status; otherwise it calls `set_indexing`, runs the indexing
pipeline, and finally clears the status.  A pipeline error leaves the
store unchanged in this model (the scenarios proved below never hit
one). -/
def indexWorker (embed : String → List Int) (fresh : Nat → String) (bs : Nat)
    (f : Docx) (sid : String) (σ : SysState) : SysState :=
  if get_status σ.broker σ.store sid = "aborted" then
    { σ with broker := set_completed σ.broker sid }
  else
    let b1 := set_indexing σ.broker sid
    match runIndexing embed fresh bs [f] (some [sid]) σ.store with
    | .ok st2 => { store := st2, broker := set_completed b1 sid }
    | .error _ => { store := σ.store, broker := set_completed b1 sid }

/-- The `deindex_sources` handler (DELETE `/sources`, lines 167-187):
from the current statuses, collect the `"indexed"` ids for the background
deindex task and abort the `"waiting"` ones.  Returns the updated state
and the collected ids (Python gathers them in a set; only membership
reaches the deindex filter). -/
def deindexEndpoint (source_ids : List String) (σ : SysState) :
    SysState × List String :=
  let sts := get_statusses σ.broker σ.store source_ids
  let toDeindex := (sts.filter (fun p => p.2 = "indexed")).map Prod.fst
  let broker2 :=
    sts.foldl (fun b p => if p.2 = "waiting" then set_aborted b p.1 else b) σ.broker
  ({ σ with broker := broker2 }, toDeindex)

/-- `deindex_in_background` (lines 173-178), run under the store-write
mutex. -/
def deindexWorker (ids : List String) (σ : SysState) : SysState :=
  { σ with store := runDeindexing ids σ.store }

/-! ### Basic lemmas on the embedded containers -/

theorem VList.toList_ofList (l : List Value) : (VList.ofList l).toList = l := by
  induction l with
  | nil => rfl
  | cons x xs ih => simp [VList.ofList, VList.toList, ih]

theorem VList.toList_append : (l1 l2 : VList) →
    (l1.append l2).toList = l1.toList ++ l2.toList
  | .nil, l2 => rfl
  | .cons x xs, l2 => by simp [VList.append, VList.toList, toList_append xs l2]

theorem VDict.lookup_set_self : (m : VDict) → ∀ (k : String) (v : Value),
    (m.set k v).lookup k = some v
  | .nil => by intro k v ; simp [VDict.set, VDict.lookup]
  | .cons k2 w rest => by
      intro k v
      by_cases h : k2 = k
      · simp [VDict.set, VDict.lookup, h]
      · simp [VDict.set, VDict.lookup, h, lookup_set_self rest k v]

theorem VDict.lookup_set_ne : (m : VDict) → ∀ (k k2 : String) (v : Value),
    k2 ≠ k → (m.set k v).lookup k2 = m.lookup k2
  | .nil => by
      intro k k2 v h
      simp only [VDict.set, VDict.lookup]
      rw [if_neg (fun hh : k = k2 => h hh.symm)]
  | .cons k3 w rest => by
      intro k k2 v h
      by_cases h3 : k3 = k
      · subst h3
        rw [VDict.set, if_pos rfl]
        simp only [VDict.lookup]
        rw [if_neg (fun hh : k3 = k2 => h hh.symm)]
        rw [if_neg (fun hh : k3 = k2 => h hh.symm)]
      · simp only [VDict.set, if_neg h3, VDict.lookup]
        by_cases h2 : k3 = k2 <;> simp [h2, lookup_set_ne rest k k2 v h]

/-! ### Parser lemmas (claim C10) -/

/-- Whether a paragraph is recognised as a heading. -/
def isHeadingPara (p : Para) : Bool := (parse_level p.style).isSome

theorem parseGo_length (ps : List Para) : ∀ (hs : List String) (cs : List String),
    (parseGo hs cs ps).length = ps.countP isHeadingPara + 1 := by
  induction ps with
  | nil => intro hs cs ; simp [parseGo]
  | cons p rest ih =>
      intro hs cs
      by_cases h : (parse_level p.style).isSome
      · obtain ⟨lvl, hl⟩ := Option.isSome_iff_exists.mp h
        rw [parseGo, hl]
        simp only [List.countP_cons, isHeadingPara, hl]
        simp [ih]
      · rw [parseGo]
        rw [Option.not_isSome_iff_eq_none] at h
        rw [h]
        simp only [List.countP_cons, isHeadingPara]
        simp [h, ih]

/-! ### `DocxToDocuments` characterization (claims C9, C10) -/

theorem docxToDocuments_go (meta0 : VDict) (ps : List (Docx × String))
    (acc : List Doc × List String) :
    ps.foldl
      (fun acc sp =>
        match DocxParser_parse sp.1 with
        | .ok secs => (acc.1 ++ secs.map (sectionDoc meta0 sp.2), acc.2)
        | .error e =>
            (acc.1, acc.2 ++ ["Failed to convert DOCX file. Skipping it. Error: " ++ e]))
      acc =
      (acc.1 ++ ps.flatMap (fun sp =>
          match DocxParser_parse sp.1 with
          | .ok secs => secs.map (sectionDoc meta0 sp.2)
          | .error _ => []),
       acc.2 ++ ps.flatMap (fun sp =>
          match DocxParser_parse sp.1 with
          | .ok _ => []
          | .error e => ["Failed to convert DOCX file. Skipping it. Error: " ++ e])) := by
  induction ps generalizing acc with
  | nil => simp
  | cons sp rest ih =>
      cases hp : DocxParser_parse sp.1 with
      | ok secs => simp [List.foldl_cons, hp, ih]
      | error e => simp [List.foldl_cons, hp, ih]

/-- The converter output over positionally paired sources. -/
theorem docxToDocuments_eq (fresh : Nat → String) (sources : List Docx)
    (sids : List String) (meta0 : VDict) (hlen : sids.length = sources.length) :
    docxToDocuments fresh sources (some sids) meta0 =
      ((sources.zip sids).flatMap (fun sp =>
          match DocxParser_parse sp.1 with
          | .ok secs => secs.map (sectionDoc meta0 sp.2)
          | .error _ => []),
       (sources.zip sids).flatMap (fun sp =>
          match DocxParser_parse sp.1 with
          | .ok _ => []
          | .error e => ["Failed to convert DOCX file. Skipping it. Error: " ++ e])) := by
  unfold docxToDocuments iter_sources
  simp only [Option.getD_some]
  rw [if_neg (by omega)]
  rw [List.take_of_length_le (by omega)]
  rw [docxToDocuments_go]
  simp

/-! ### Claim C10 — parser emission discipline -/

/-- C10: for every parseable document the parser emits exactly one
`(heading-path, body-text)` tuple per heading paragraph plus one final
tuple; when the document is empty, or its first paragraph is a heading,
the first emitted tuple is `([], "")`; and `DocxToDocuments` turns every
emitted tuple — the empty-section one included — into a passage
candidate. -/
theorem c10_parser_emits_empty_sections (ps : List Para) (fresh : Nat → String)
    (sid : String) :
    (DocxParser_parse (.ok ps) = .ok (parseGo [] [] ps)) ∧
    ((parseGo [] [] ps).length = ps.countP isHeadingPara + 1) ∧
    (ps = [] → parseGo [] [] ps = [([], "")]) ∧
    (∀ p rest, ps = p :: rest → isHeadingPara p = true →
        (parseGo [] [] ps).head? = some ([], "")) ∧
    ((docxToDocuments fresh [.ok ps] (some [sid]) .nil).1 =
      (parseGo [] [] ps).map (sectionDoc .nil sid)) := by
  refine ⟨rfl, parseGo_length ps [] [], ?_, ?_, ?_⟩
  · rintro rfl ; rfl
  · rintro p rest rfl hp
    simp only [isHeadingPara] at hp
    obtain ⟨lvl, hl⟩ := Option.isSome_iff_exists.mp hp
    rw [parseGo, hl]
    rfl
  · rw [docxToDocuments_eq fresh [.ok ps] [sid] .nil (by simp)]
    simp [DocxParser_parse, open_docx_carefully, Except.map]

/-- Witness for C10 at a one-heading document. -/
theorem c10_witness :
    (parseGo [] [] [⟨"Heading 1", "Intro"⟩]).head? = some ([], "") :=
  (c10_parser_emits_empty_sections [⟨"Heading 1", "Intro"⟩] (fun _ => "u")
    "s").2.2.2.1 ⟨"Heading 1", "Intro"⟩ [] rfl (by decide)

/-! ### Claim C9 — parse failures are isolated -/

/-- C9: an unopenable source raises a `DocxParserError` carrying the
underlying reason, and the converter catches it per source: in any batch
the failing source contributes no passages and one logged warning while
the surrounding sources are still converted. -/
theorem c9_parse_error_skips_source (fresh : Nat → String) (meta0 : VDict)
    (xs ys : List Docx) (ws zs : List String) (r i : String)
    (hx : ws.length = xs.length) (hy : zs.length = ys.length) :
    (DocxParser_parse (.failed r) =
      .error ("Failed to open DOCX file. Error: " ++ r)) ∧
    docxToDocuments fresh (xs ++ [.failed r] ++ ys) (some (ws ++ [i] ++ zs)) meta0 =
      ((docxToDocuments fresh xs (some ws) meta0).1 ++
        (docxToDocuments fresh ys (some zs) meta0).1,
       (docxToDocuments fresh xs (some ws) meta0).2 ++
        ["Failed to convert DOCX file. Skipping it. Error: " ++
          ("Failed to open DOCX file. Error: " ++ r)] ++
        (docxToDocuments fresh ys (some zs) meta0).2) := by
  refine ⟨rfl, ?_⟩
  rw [docxToDocuments_eq fresh (xs ++ [Docx.failed r] ++ ys) (ws ++ [i] ++ zs) meta0
      (by simp [hx, hy]),
    docxToDocuments_eq fresh xs ws meta0 hx,
    docxToDocuments_eq fresh ys zs meta0 hy]
  rw [List.zip_append (by simp ; omega), List.zip_append (by omega)]
  simp [DocxParser_parse, open_docx_carefully, Except.map]

/-- Witness for C9: a failing source between two good ones. -/
theorem c9_witness :
    docxToDocuments (fun _ => "u")
        [.ok [⟨"Normal", "alpha"⟩], .failed "bad zip", .ok [⟨"Normal", "beta"⟩]]
        (some ["a", "b", "c"]) .nil =
      ((docxToDocuments (fun _ => "u") [.ok [⟨"Normal", "alpha"⟩]] (some ["a"]) .nil).1 ++
        (docxToDocuments (fun _ => "u") [.ok [⟨"Normal", "beta"⟩]] (some ["c"]) .nil).1,
       (docxToDocuments (fun _ => "u") [.ok [⟨"Normal", "alpha"⟩]] (some ["a"]) .nil).2 ++
        ["Failed to convert DOCX file. Skipping it. Error: " ++
          ("Failed to open DOCX file. Error: " ++ "bad zip")] ++
        (docxToDocuments (fun _ => "u") [.ok [⟨"Normal", "beta"⟩]] (some ["c"]) .nil).2) :=
  (c9_parse_error_skips_source (fun _ => "u") .nil
    [.ok [⟨"Normal", "alpha"⟩]] [.ok [⟨"Normal", "beta"⟩]]
    ["a"] ["c"] "bad zip" "b" (by decide) (by decide)).2

/-! ### Claims C2 and C4 — the broker never records `waiting`

`index_source` (POST `/sources`) schedules the background job and returns
without ever calling `set_waiting`, so the broker map stays empty: a
DELETE issued before the worker acquires the store-write mutex finds the
derived status `"not found"` (not `"waiting"`), aborts nothing, and the
worker then indexes the supposedly cancelled source; likewise a GET right
after the POST reports `"not found"` instead of `"waiting"`/`"indexing"`. -/

/-- A sample upload used by the concrete endpoint scenarios. -/
def sampleDocx : Docx := .ok [⟨"Normal", "hello world"⟩]

/-- A sample embedding oracle. -/
def sampleEmbed : String → List Int := fun _ => [1]

/-- A sample `new_source_id` oracle (never consulted when ids are
supplied). -/
def sampleFresh : Nat → String := fun _ => "fresh-uuid"

/-- C2 (code bug): in the claim's scenario — POST, then DELETE before the
worker acquires the store-write mutex — the DELETE leaves the broker
untouched (no abort happens), the worker then runs the ingestion pipeline
anyway, the stored passages reference the id, and a subsequent GET
reports `"indexed"`, contradicting the claimed cancellation. -/
theorem c2_cancellation_scenario_indexes_anyway :
    ((deindexEndpoint ["s1"] (postSource ⟨[], []⟩).1).1.broker = []) ∧
    (let σ1 := deindexWorker (deindexEndpoint ["s1"] (postSource ⟨[], []⟩).1).2
        (deindexEndpoint ["s1"] (postSource ⟨[], []⟩).1).1
     let σ2 := indexWorker sampleEmbed sampleFresh 32 sampleDocx "s1" σ1
     get_status σ2.broker σ2.store "s1" = "indexed" ∧
       σ2.store.any (fun d => (locIdsOfDoc d).contains "s1") = true) := by
  decide

/-- C4 (code bug): immediately after POST `/sources` returns, a GET for
the new id derives its status from the store and answers `"not found"`,
not `"indexing"` or `"waiting"`. -/
theorem c4_get_after_post_is_not_found :
    get_status ((postSource ⟨[], []⟩).1).broker ((postSource ⟨[], []⟩).1).store "s1" =
        "not found" ∧
      ("not found" ≠ "indexing" ∧ "not found" ≠ "waiting") := by
  decide

/-! ### Grouping lemmas for `MergeMetadata` -/

/-- The ids that open new groups: first-seen deduplication of a key list,
excluding the keys already seen. -/
def newKeys (seen : List String) : List String → List String
  | [] => []
  | k :: ks => if k ∈ seen then newKeys seen ks else k :: newKeys (k :: seen) ks

theorem newKeys_congr : ∀ (l s1 s2 : List String), (∀ x, x ∈ s1 ↔ x ∈ s2) →
    newKeys s1 l = newKeys s2 l
  | [], _, _, _ => rfl
  | k :: ks, s1, s2, h => by
      rw [newKeys, newKeys]
      by_cases hk : k ∈ s1
      · rw [if_pos hk, if_pos ((h k).mp hk)]
        exact newKeys_congr ks s1 s2 h
      · rw [if_neg hk, if_neg (fun hc => hk ((h k).mpr hc))]
        rw [newKeys_congr ks (k :: s1) (k :: s2) (fun x => by simp [h x])]

theorem newKeys_mem : ∀ (l : List String) (s : List String) (x : String),
    x ∈ newKeys s l ↔ x ∈ l ∧ x ∉ s
  | [], s, x => by simp [newKeys]
  | k :: ks, s, x => by
      rw [newKeys]
      by_cases hk : k ∈ s
      · rw [if_pos hk, newKeys_mem ks s x]
        constructor
        · exact fun h => ⟨List.mem_cons_of_mem k h.1, h.2⟩
        · rintro ⟨h1, h2⟩
          rcases List.mem_cons.mp h1 with h1 | h1
          · exact absurd (h1 ▸ hk) h2
          · exact ⟨h1, h2⟩
      · rw [if_neg hk]
        by_cases hx : x = k
        · subst hx
          simp [hk]
        · simp only [List.mem_cons, hx, false_or]
          rw [newKeys_mem ks (k :: s) x]
          simp [hx]

theorem newKeys_nodup : ∀ (l s : List String), (newKeys s l).Nodup
  | [], s => by simp [newKeys]
  | k :: ks, s => by
      rw [newKeys]
      by_cases hk : k ∈ s
      · rw [if_pos hk] ; exact newKeys_nodup ks s
      · rw [if_neg hk]
        refine List.nodup_cons.mpr ⟨?_, newKeys_nodup ks (k :: s)⟩
        intro hc
        have := ((newKeys_mem ks (k :: s) k).mp hc).2
        simp at this

theorem newKeys_eq_self : ∀ (l s : List String), l.Nodup → (∀ x ∈ l, x ∉ s) →
    newKeys s l = l
  | [], s, _, _ => rfl
  | k :: ks, s, hnd, hs => by
      rw [newKeys, if_neg (hs k (by simp))]
      rw [List.nodup_cons] at hnd
      rw [newKeys_eq_self ks (k :: s) hnd.2 (fun x hx => by
        simp only [List.mem_cons]
        push_neg
        exact ⟨fun he => hnd.1 (he ▸ hx), hs x (List.mem_cons_of_mem k hx)⟩)]

/-- `groupInsert` when the id already has a group (keys assumed distinct):
append the document to that group. -/
theorem groupInsert_mem (m : List (String × List Doc)) (d : Doc)
    (hnd : (m.map Prod.fst).Nodup) (hmem : d.id ∈ m.map Prod.fst) :
    groupInsert m d = m.map (fun kg => if kg.1 = d.id then (kg.1, kg.2 ++ [d]) else kg) := by
  induction m with
  | nil => simp at hmem
  | cons kg rest ih =>
      obtain ⟨k, g⟩ := kg
      simp only [List.map_cons, List.nodup_cons, List.mem_cons] at hnd hmem
      by_cases hk : k = d.id
      · rw [groupInsert, if_pos hk]
        simp only [List.map_cons, if_pos hk]
        congr 1
        have hpt : ∀ kg2 ∈ rest,
            (if kg2.1 = d.id then (kg2.1, kg2.2 ++ [d]) else kg2) = id kg2 := by
          intro kg2 h2
          simp only [id]
          rw [if_neg]
          intro he
          exact hnd.1 (by
            rw [hk, ← he]
            exact List.mem_map_of_mem Prod.fst h2)
        rw [List.map_congr_left hpt, List.map_id]
      · have hmem2 : d.id ∈ rest.map Prod.fst := by
          rcases hmem with h | h
          · exact absurd h.symm hk
          · exact h
        rw [groupInsert, if_neg hk]
        simp only [List.map_cons, if_neg hk]
        rw [ih hnd.2 hmem2]

/-- `groupInsert` for a fresh id: open a new group at the end. -/
theorem groupInsert_notMem (m : List (String × List Doc)) (d : Doc)
    (hmem : d.id ∉ m.map Prod.fst) :
    groupInsert m d = m ++ [(d.id, [d])] := by
  induction m with
  | nil => rfl
  | cons kg rest ih =>
      simp only [List.map_cons, List.mem_cons] at hmem
      push_neg at hmem
      rw [groupInsert, if_neg (fun he => hmem.1 he.symm), ih hmem.2]
      rfl

theorem groupInsert_keys_mem (m : List (String × List Doc)) (d : Doc)
    (hnd : (m.map Prod.fst).Nodup) (hmem : d.id ∈ m.map Prod.fst) :
    (groupInsert m d).map Prod.fst = m.map Prod.fst := by
  rw [groupInsert_mem m d hnd hmem, List.map_map]
  apply List.map_congr_left
  intro kg _
  by_cases h : kg.1 = d.id <;> simp [h]

/-- The grouping fold of `MergeMetadata.run`, characterised: existing
groups are extended with their matching documents, and the fresh ids (in
first-seen order) open new groups holding all their documents. -/
theorem foldl_groupInsert_eq : ∀ (l : List Doc) (m : List (String × List Doc)),
    (m.map Prod.fst).Nodup →
    l.foldl groupInsert m =
      m.map (fun kg => (kg.1, kg.2 ++ l.filter (fun d => d.id = kg.1))) ++
      (newKeys (m.map Prod.fst) (l.map Doc.id)).map
        (fun k => (k, l.filter (fun d => d.id = k))) := by
  intro l
  induction l with
  | nil =>
      intro m hnd
      simp [newKeys]
  | cons d ds ih =>
      intro m hnd
      rw [List.foldl_cons]
      by_cases hmem : d.id ∈ m.map Prod.fst
      · rw [groupInsert_mem m d hnd hmem]
        have hkeys : (m.map (fun kg =>
            if kg.1 = d.id then (kg.1, kg.2 ++ [d]) else kg)).map Prod.fst =
            m.map Prod.fst := by
          rw [List.map_map]
          apply List.map_congr_left
          intro kg _
          by_cases h : kg.1 = d.id <;> simp [h]
        rw [ih _ (by rw [hkeys] ; exact hnd)]
        rw [hkeys]
        congr 1
        · rw [List.map_map]
          apply List.map_congr_left
          intro kg _
          by_cases h : kg.1 = d.id
          · simp only [Function.comp, if_pos h, List.filter_cons,
              decide_eq_true_eq]
            rw [if_pos (by rw [h])]
            simp [h]
          · simp only [Function.comp, if_neg h, List.filter_cons,
              decide_eq_true_eq]
            rw [if_neg (by simpa using fun he : d.id = kg.1 => h he.symm)]
        · rw [show List.map Doc.id (d :: ds) = d.id :: List.map Doc.id ds from rfl]
          rw [show newKeys (m.map Prod.fst) (d.id :: ds.map Doc.id) =
              newKeys (m.map Prod.fst) (ds.map Doc.id) from by
            rw [newKeys, if_pos hmem]]
          apply List.map_congr_left
          intro k hk
          have hknot := ((newKeys_mem _ _ k).mp hk).2
          have hne : d.id ≠ k := fun he => hknot (he ▸ hmem)
          rw [List.filter_cons]
          rw [if_neg (by simpa using hne)]
      · rw [groupInsert_notMem m d hmem]
        have hkeys : (m ++ [(d.id, [d])]).map Prod.fst =
            m.map Prod.fst ++ [d.id] := by simp
        rw [ih _ (by
          rw [hkeys]
          exact List.Nodup.append hnd (List.nodup_singleton _)
            (fun a ha hb => hmem ((List.mem_singleton.mp hb) ▸ ha)))]
        rw [hkeys]
        rw [List.map_append]
        rw [List.append_assoc]
        congr 1
        · apply List.map_congr_left
          intro kg hkg
          have hne : kg.1 ≠ d.id := fun he =>
            hmem (he ▸ List.mem_map_of_mem Prod.fst hkg)
          rw [List.filter_cons]
          rw [if_neg (by simpa using fun he : d.id = kg.1 => hne he.symm)]
        · rw [newKeys_congr (ds.map Doc.id) (m.map Prod.fst ++ [d.id])
            (d.id :: m.map Prod.fst) (fun x => by simp [or_comm])]
          rw [show List.map Doc.id (d :: ds) = d.id :: List.map Doc.id ds from rfl]
          rw [show newKeys (m.map Prod.fst) (d.id :: ds.map Doc.id) =
              d.id :: newKeys (d.id :: m.map Prod.fst) (ds.map Doc.id) from by
            rw [newKeys, if_neg hmem]]
          simp only [List.map_cons, List.map_nil, List.cons_append, List.nil_append]
          congr 1
          · rw [List.filter_cons]
            simp
          · apply List.map_congr_left
            intro k hk
            have hknot := ((newKeys_mem _ _ k).mp hk).2
            have hne : d.id ≠ k := fun he => hknot (by simp [he])
            rw [List.filter_cons]
            simp only [decide_eq_true_eq]
            rw [if_neg hne]

/-- `MergeMetadata.run`, characterised: one output document per distinct
input id (first-seen order), merging all documents with that id. -/
theorem mergeMetadataRun_eq (dss : List (List Doc)) :
    mergeMetadataRun dss =
      (newKeys [] ((dss.flatten).map Doc.id)).map
        (fun k => mergeGroup ((dss.flatten).filter (fun d => d.id = k))) := by
  unfold mergeMetadataRun
  rw [foldl_groupInsert_eq _ [] (by simp)]
  simp [List.map_map, Function.comp]

theorem mergeGroup_id_of_filter {l : List Doc} {k : String}
    (h : k ∈ l.map Doc.id) :
    (mergeGroup (l.filter (fun d => d.id = k))).id = k := by
  obtain ⟨d, hd, rfl⟩ := List.mem_map.mp h
  cases hflt : l.filter (fun d2 => decide (d2.id = d.id)) with
  | nil =>
      have hdmem : d ∈ l.filter (fun d2 => decide (d2.id = d.id)) :=
        List.mem_filter.mpr ⟨hd, by simp only [decide_eq_true_eq]⟩
      rw [hflt] at hdmem
      simp at hdmem
  | cons d0 rest =>
      have hd0 : d0 ∈ l.filter (fun d2 => decide (d2.id = d.id)) := by
        rw [hflt] ; exact List.mem_cons_self d0 rest
      have := (List.mem_filter.mp hd0).2
      simp only [decide_eq_true_eq] at this
      simp [mergeGroup, this]

theorem mergeMetadataRun_ids (dss : List (List Doc)) :
    (mergeMetadataRun dss).map Doc.id = newKeys [] ((dss.flatten).map Doc.id) := by
  rw [mergeMetadataRun_eq, List.map_map]
  conv_rhs => rw [← List.map_id (newKeys [] ((dss.flatten).map Doc.id))]
  apply List.map_congr_left
  intro k hk
  simp only [Function.comp, id]
  exact mergeGroup_id_of_filter ((newKeys_mem _ _ k).mp hk).1

/-! ### Lookup characterization of `recursively_merge_dicts` -/

theorem lookup_append : ∀ (a b : VDict) (k : String),
    (VDict.append a b).lookup k =
      match a.lookup k with
      | some v => some v
      | none => b.lookup k
  | .nil, b, k => rfl
  | .cons k2 v rest, b, k => by
      by_cases h : k2 = k
      · simp [VDict.append, VDict.lookup, h]
      · simp [VDict.append, VDict.lookup, h, lookup_append rest b k]

theorem lookup_mergeLeft : ∀ (d1 d2 : VDict) (k : String),
    (mergeLeft d1 d2).lookup k =
      match d1.lookup k with
      | some v => some
          (match d2.lookup k with
           | some w => mergeVal v w
           | none => v)
      | none => none
  | .nil, d2, k => rfl
  | .cons k2 v rest, d2, k => by
      by_cases h : k2 = k
      · subst h
        simp [mergeLeft, VDict.lookup]
      · simp [mergeLeft, VDict.lookup, h, lookup_mergeLeft rest d2 k]

theorem lookup_restOnly : ∀ (d1 d2 : VDict) (k : String),
    (restOnly d1 d2).lookup k =
      if (d1.lookup k).isSome then none else d2.lookup k
  | d1, .nil, k => by
      cases h : (d1.lookup k).isSome <;> simp [restOnly, VDict.lookup, h]
  | d1, .cons k2 v rest, k => by
      by_cases h : k2 = k
      · subst h
        cases h1 : (d1.lookup k2).isSome with
        | true =>
            have : (d1.lookup k2).isNone = false := by
              cases hl : d1.lookup k2 <;> simp_all
            simp [restOnly, this, lookup_restOnly d1 rest k2, h1]
        | false =>
            have : (d1.lookup k2).isNone = true := by
              cases hl : d1.lookup k2 <;> simp_all
            simp [restOnly, this, VDict.lookup, h1]
      · cases h2 : (d1.lookup k2).isNone <;>
          simp [restOnly, h2, VDict.lookup, h, lookup_restOnly d1 rest k]

/-- The per-key behaviour of `recursively_merge_dicts`. -/
theorem rmerge_lookup (d1 d2 : VDict) (k : String) :
    (recursively_merge_dicts d1 d2).lookup k =
      match d1.lookup k, d2.lookup k with
      | some v1, some v2 => some (mergeVal v1 v2)
      | some v1, none => some v1
      | none, some v2 => some v2
      | none, none => none := by
  rw [recursively_merge_dicts, lookup_append, lookup_mergeLeft, lookup_restOnly]
  cases h1 : d1.lookup k <;> cases h2 : d2.lookup k <;> simp

/-! ### Idempotence analysis of the merge (claim C6) -/

mutual

/-- Claim-side predicate: the value holds a sequence-valued entry at some
dict-nesting depth (Python lists are what the merge concatenates; a list
value anywhere — empty or not — counts as a sequence entry). -/
def hasSeqVal : Value → Bool
  | .prim _ => false
  | .vtup _ => false
  | .vlist _ => true
  | .vdict m => hasSeqDict m

/-- Claim-side predicate on dicts: some entry holds a sequence value. -/
def hasSeqDict : VDict → Bool
  | .nil => false
  | .cons _ v rest => hasSeqVal v || hasSeqDict rest

end

mutual

/-- Every list value reachable through dict nesting is empty (the exact
condition under which `merge(d, d) = d`). -/
def onlyEmptyListsVal : Value → Bool
  | .prim _ => true
  | .vtup _ => true
  | .vlist .nil => true
  | .vlist (.cons _ _) => false
  | .vdict m => onlyEmptyListsDict m

def onlyEmptyListsDict : VDict → Bool
  | .nil => true
  | .cons _ v rest => onlyEmptyListsVal v && onlyEmptyListsDict rest

end

mutual

/-- Well-formedness of an embedded Python value: every dict reachable
through dict nesting has pairwise-distinct keys (true of every real
Python dict; values inside lists and tuples are never merged, so they
need no condition). -/
def wfVal : Value → Bool
  | .prim _ => true
  | .vtup _ => true
  | .vlist _ => true
  | .vdict m => wfDict m

def wfDict : VDict → Bool
  | .nil => true
  | .cons k v rest => (rest.lookup k).isNone && wfVal v && wfDict rest

end

theorem VDict.append_nil : ∀ (d : VDict), VDict.append d .nil = d
  | .nil => rfl
  | .cons k v rest => by rw [VDict.append, append_nil rest]

theorem lookup_isSome_of_mem_entries : ∀ (d : VDict) (kv : String × Value),
    kv ∈ d.entries → (d.lookup kv.1).isSome = true
  | .nil, kv => by
      intro h
      rw [VDict.entries] at h
      simp at h
  | .cons k v rest, kv => by
      intro h
      rw [VDict.entries] at h
      rcases List.mem_cons.mp h with h | h
      · rw [h, VDict.lookup, if_pos rfl]
        rfl
      · rw [VDict.lookup]
        by_cases hk : k = kv.1
      
        · rw [if_pos hk] ; rfl
        · rw [if_neg hk]
          exact lookup_isSome_of_mem_entries rest kv h

theorem restOnly_eq_nil : ∀ (d1 d2 : VDict),
    (∀ kv ∈ d2.entries, (d1.lookup kv.1).isSome = true) → restOnly d1 d2 = .nil
  | d1, .nil, _ => rfl
  | d1, .cons k v rest, h => by
      rw [restOnly]
      have hk := h (k, v) (by rw [VDict.entries] ; exact List.mem_cons_self _ _)
      rw [if_neg (by
        intro hc
        rw [Option.isNone_iff_eq_none] at hc
        rw [hc] at hk
        simp at hk)]
      exact restOnly_eq_nil d1 rest (fun kv hkv =>
        h kv (by rw [VDict.entries] ; exact List.mem_cons_of_mem _ hkv))

theorem wfDict_lookup_entries : ∀ (m : VDict), wfDict m = true →
    ∀ kv ∈ m.entries, m.lookup kv.1 = some kv.2
  | .nil, _, kv => by
      intro h
      rw [VDict.entries] at h
      simp at h
  | .cons k v rest, hw, kv => by
      intro h
      rw [wfDict, Bool.and_eq_true, Bool.and_eq_true] at hw
      rw [VDict.entries] at h
      rcases List.mem_cons.mp h with h | h
      · rw [h, VDict.lookup, if_pos rfl]
      · have hrest := wfDict_lookup_entries rest hw.2 kv h
        rw [VDict.lookup]
        rw [if_neg (by
          intro hk
          have := hw.1.1
          rw [hk] at this
          rw [hrest] at this
          simp at this)]
        exact hrest

theorem wfDict_entries_wfVal : ∀ (m : VDict), wfDict m = true →
    ∀ kv ∈ m.entries, wfVal kv.2 = true
  | .nil, _, kv => by
      intro h
      rw [VDict.entries] at h
      simp at h
  | .cons k v rest, hw, kv => by
      intro h
      rw [wfDict, Bool.and_eq_true, Bool.and_eq_true] at hw
      rw [VDict.entries] at h
      rcases List.mem_cons.mp h with h | h
      · rw [h] ; exact hw.1.2
      · exact wfDict_entries_wfVal rest hw.2 kv h

theorem onlyEmptyListsDict_iff_entries : ∀ (m : VDict),
    onlyEmptyListsDict m = true ↔ ∀ kv ∈ m.entries, onlyEmptyListsVal kv.2 = true
  | .nil => by simp [onlyEmptyListsDict, VDict.entries]
  | .cons k v rest => by
      rw [onlyEmptyListsDict, Bool.and_eq_true, VDict.entries,
        onlyEmptyListsDict_iff_entries rest]
      constructor
      · rintro ⟨h1, h2⟩ kv hkv
        rcases List.mem_cons.mp hkv with h | h
        · rw [h] ; exact h1
        · exact h2 kv h
      · intro h
        exact ⟨h (k, v) (List.mem_cons_self _ _),
          fun kv hkv => h kv (List.mem_cons_of_mem _ hkv)⟩

theorem VList.ofList_toList : ∀ (l : VList), VList.ofList l.toList = l
  | .nil => rfl
  | .cons x xs => by rw [VList.toList, VList.ofList, ofList_toList xs]

theorem VList.append_self_eq_iff (l : VList) : l.append l = l ↔ l = .nil := by
  constructor
  · intro h
    have := congrArg VList.toList h
    rw [VList.toList_append] at this
    have hlen := congrArg List.length this
    rw [List.length_append] at hlen
    have : l.toList = [] := List.eq_nil_of_length_eq_zero (by omega)
    have h2 := congrArg VList.ofList this
    rw [VList.ofList_toList] at h2
    exact h2
  · rintro rfl ; rfl

mutual

theorem mergeVal_self_iff : ∀ (v : Value), wfVal v = true →
    (mergeVal v v = v ↔ onlyEmptyListsVal v = true)
  | .prim s, _ => by simp [mergeVal, onlyEmptyListsVal]
  | .vtup l, _ => by simp [mergeVal, onlyEmptyListsVal]
  | .vlist l, _ => by
      rw [mergeVal_list]
      constructor
      · intro h
        have := (VList.append_self_eq_iff l).mp (by
          have := congrArg (fun x => match x with
            | Value.vlist y => y
            | _ => VList.nil) h
          simpa using this)
        rw [this] ; rfl
      · intro h
        cases l with
        | nil => rfl
        | cons x xs => simp [onlyEmptyListsVal] at h
  | .vdict m, hw => by
      rw [mergeVal_dict]
      rw [recursively_merge_dicts]
      rw [restOnly_eq_nil m m (fun kv hkv => lookup_isSome_of_mem_entries m kv hkv)]
      rw [VDict.append_nil]
      have hw2 : wfDict m = true := by rw [wfVal] at hw ; exact hw
      have h1 := mergeLeftSelf m m (wfDict_lookup_entries m hw2)
        (wfDict_entries_wfVal m hw2)
      rw [show onlyEmptyListsVal (.vdict m) = onlyEmptyListsDict m from rfl]
      rw [onlyEmptyListsDict_iff_entries]
      constructor
      · intro h
        exact h1.mp (by
          have := congrArg (fun x => match x with
            | Value.vdict y => y
            | _ => VDict.nil) h
          simpa using this)
      · intro h
        rw [h1.mpr h]

theorem mergeLeftSelf : ∀ (m full : VDict),
    (∀ kv ∈ m.entries, full.lookup kv.1 = some kv.2) →
    (∀ kv ∈ m.entries, wfVal kv.2 = true) →
    (mergeLeft m full = m ↔ ∀ kv ∈ m.entries, onlyEmptyListsVal kv.2 = true)
  | .nil, full, _, _ => by simp [mergeLeft, VDict.entries]
  | .cons k v rest, full, hlk, hwf => by
      rw [mergeLeft]
      rw [hlk (k, v) (by rw [VDict.entries] ; exact List.mem_cons_self _ _)]
      have h1 := mergeVal_self_iff v
        (hwf (k, v) (by rw [VDict.entries] ; exact List.mem_cons_self _ _))
      have h2 := mergeLeftSelf rest full
        (fun kv hkv => hlk kv (by rw [VDict.entries] ; exact List.mem_cons_of_mem _ hkv))
        (fun kv hkv => hwf kv (by rw [VDict.entries] ; exact List.mem_cons_of_mem _ hkv))
      constructor
      · intro h
        obtain ⟨-, hv, hr⟩ := VDict.cons.inj h
        intro kv hkv
        rw [VDict.entries] at hkv
        rcases List.mem_cons.mp hkv with hkv | hkv
        · rw [hkv] ; exact h1.mp hv
        · exact (h2.mp hr) kv hkv
      · intro h
        have hv := h1.mpr (h (k, v)
          (by rw [VDict.entries] ; exact List.mem_cons_self _ _))
        have hr := h2.mpr (fun kv hkv =>
          h kv (by rw [VDict.entries] ; exact List.mem_cons_of_mem _ hkv))
        show VDict.cons k (mergeVal v v) (mergeLeft rest full) = VDict.cons k v rest
        rw [hv, hr]

end

/-! ### Claim C5 — merge semantics and group folding -/

/-- C5: per key, `recursively_merge_dicts` takes the only present side,
merges dict/dict recursively, concatenates list/list left-then-right and
otherwise keeps the left value; and `MergeMetadata.run` merges each group
of same-id documents into its first member (content and embedding
retained), with the metadata left-folded through the recursive merge. -/
theorem c5_merge_and_group_semantics :
    (∀ (d1 d2 : VDict) (k : String),
      (recursively_merge_dicts d1 d2).lookup k =
        match d1.lookup k, d2.lookup k with
        | some (.vdict m1), some (.vdict m2) =>
            some (.vdict (recursively_merge_dicts m1 m2))
        | some (.vlist l1), some (.vlist l2) => some (.vlist (l1.append l2))
        | some v1, some _ => some v1
        | some v1, none => some v1
        | none, some v2 => some v2
        | none, none => none) ∧
    (∀ (dss : List (List Doc)),
      mergeMetadataRun dss =
        (newKeys [] ((dss.flatten).map Doc.id)).map
          (fun k =>
            match (dss.flatten).filter (fun d => d.id = k) with
            | [] => default
            | d0 :: ds =>
                { d0 with
                  meta := ds.foldl (fun mm e => recursively_merge_dicts mm e.meta) d0.meta })) := by
  constructor
  · intro d1 d2 k
    rw [rmerge_lookup]
    cases h1 : d1.lookup k with
    | none => cases h2 : d2.lookup k <;> rfl
    | some v1 =>
        cases h2 : d2.lookup k with
        | none => cases v1 <;> rfl
        | some v2 => cases v1 <;> cases v2 <;> rfl
  · intro dss
    rw [mergeMetadataRun_eq]
    rfl

/-! ### Claim C6 — merge self-idempotence -/

/-- C6 counterexample: the dict `{"k": []}` has a sequence-valued entry,
yet `merge(d, d) = d` holds for it — refuting the claim that the equality
holds only in the sequence-free case. -/
theorem c6_counterexample :
    hasSeqDict (VDict.cons "k" (.vlist .nil) .nil) = true ∧
    recursively_merge_dicts (VDict.cons "k" (.vlist .nil) .nil)
        (VDict.cons "k" (.vlist .nil) .nil) =
      VDict.cons "k" (.vlist .nil) .nil := by
  decide

/-- C6 amended: for a well-formed dict, `merge(d, d) = d` holds exactly
when every list value at any dict-nesting depth is empty — a nonempty
list is concatenated with itself and doubles, an empty one is not. -/
theorem c6_merge_self_iff_only_empty_lists (d : VDict) (hw : wfDict d = true) :
    recursively_merge_dicts d d = d ↔ onlyEmptyListsDict d = true := by
  rw [recursively_merge_dicts]
  rw [restOnly_eq_nil d d (fun kv hkv => lookup_isSome_of_mem_entries d kv hkv)]
  rw [VDict.append_nil]
  rw [onlyEmptyListsDict_iff_entries]
  exact mergeLeftSelf d d (wfDict_lookup_entries d hw) (wfDict_entries_wfVal d hw)

/-- Witness for the amended C6 at a nonempty-list dict. -/
theorem c6_witness :
    wfDict (VDict.cons "l" (.vlist (.cons (.prim "x") .nil)) .nil) = true ∧
    (recursively_merge_dicts (VDict.cons "l" (.vlist (.cons (.prim "x") .nil)) .nil)
        (VDict.cons "l" (.vlist (.cons (.prim "x") .nil)) .nil) =
        VDict.cons "l" (.vlist (.cons (.prim "x") .nil)) .nil ↔
      onlyEmptyListsDict (VDict.cons "l" (.vlist (.cons (.prim "x") .nil)) .nil) = true) :=
  ⟨by decide, c6_merge_self_iff_only_empty_lists _ (by decide)⟩

/-! ### Overwrite-policy writes, characterised -/

theorem docs_eq_of_id_eq {st : Store} (hnd : (st.map Doc.id).Nodup)
    {a b : Doc} (ha : a ∈ st) (hb : b ∈ st) (hid : a.id = b.id) : a = b :=
  List.inj_on_of_nodup_map hnd ha hb hid

theorem overwriteDocs_replace : ∀ (l : List Doc) (st : Store),
    (∀ d ∈ l, ∃ e ∈ st, e.id = d.id) →
    (l.map Doc.id).Nodup →
    overwriteDocs st l =
      st.map (fun e => ((l.find? (fun d => d.id = e.id)).getD e)) := by
  intro l
  induction l with
  | nil =>
      intro st _ _
      simp [overwriteDocs]
  | cons d l2 ih =>
      intro st hsub hnd
      rw [overwriteDocs, List.foldl_cons]
      have hex := hsub d (by simp)
      have hany : st.any (fun e => e.id = d.id) = true := by
        obtain ⟨e, he, hid⟩ := hex
        exact List.any_eq_true.mpr ⟨e, he, by simp [hid]⟩
      rw [show overwriteDoc st d =
          st.map (fun e => if e.id = d.id then d else e) from by
        rw [overwriteDoc, if_pos hany]]
      rw [List.map_cons, List.nodup_cons] at hnd
      have hsub2 : ∀ d2 ∈ l2, ∃ e ∈ st.map (fun e => if e.id = d.id then d else e),
          e.id = d2.id := by
        intro d2 hd2
        obtain ⟨e, he, hid⟩ := hsub d2 (by simp [hd2])
        refine ⟨if e.id = d.id then d else e, List.mem_map_of_mem _ he, ?_⟩
        by_cases h : e.id = d.id <;> simp [h, ← hid]
      have := ih (st.map (fun e => if e.id = d.id then d else e)) hsub2 hnd.2
      rw [show List.foldl overwriteDoc (st.map (fun e => if e.id = d.id then d else e)) l2 =
          overwriteDocs (st.map (fun e => if e.id = d.id then d else e)) l2 from rfl]
      rw [this]
      rw [List.map_map]
      apply List.map_congr_left
      intro e _
      simp only [Function.comp]
      by_cases h : e.id = d.id
      · simp only [if_pos h]
        rw [List.find?_cons_of_pos _ (by simp [h])]
        rw [show List.find? (fun d1 => decide (d1.id = d.id)) l2 = none from
          List.find?_eq_none.mpr (fun x hx => by
            simp only [decide_eq_true_eq]
            intro hc
            exact hnd.1 (hc ▸ List.mem_map_of_mem Doc.id hx))]
        simp
      · simp only [if_neg h]
        rw [List.find?_cons_of_neg _ (by
          simp only [decide_eq_true_eq]
          exact fun hc => h hc.symm)]

theorem find?_strip_filter : ∀ (st : Store), (st.map Doc.id).Nodup →
    ∀ (e : Doc), e ∈ st → ∀ (strip : Doc → Doc), (∀ d, (strip d).id = d.id) →
    ∀ (p : Doc → Bool),
    (((st.filter p).map strip).find? (fun d2 => d2.id = e.id)) =
      if p e then some (strip e) else none := by
  intro st
  induction st with
  | nil => intro _ e he ; simp at he
  | cons a rest ih =>
      intro hnd e he strip hid p
      rw [List.map_cons, List.nodup_cons] at hnd
      rcases List.mem_cons.mp he with he1 | he2
      · subst he1
        by_cases hp : p e = true
        · rw [List.filter_cons, if_pos hp, List.map_cons]
          rw [List.find?_cons_of_pos _ (by simp [hid])]
          rw [if_pos hp]
        · rw [List.filter_cons, if_neg hp, if_neg hp]
          apply List.find?_eq_none.mpr
          intro x hx
          simp only [decide_eq_true_eq]
          intro hc
          obtain ⟨y, hy, rfl⟩ := List.mem_map.mp hx
          have hy2 := (List.mem_filter.mp hy).1
          rw [hid y] at hc
          exact hnd.1 (hc ▸ List.mem_map_of_mem Doc.id hy2)
      · have hne : a.id ≠ e.id := fun hc =>
          hnd.1 (hc ▸ List.mem_map_of_mem Doc.id he2)
        by_cases hp : p a = true
        · rw [List.filter_cons, if_pos hp, List.map_cons]
          rw [List.find?_cons_of_neg _ (by simp [hid] ; exact hne)]
          exact ih hnd.2 e he2 strip hid p
        · rw [List.filter_cons, if_neg hp]
          exact ih hnd.2 e he2 strip hid p

/-! ### The deindexing pipeline, characterised (claim C8) -/

/-- The rewrite `LocationRemover` applies to one retrieved document. -/
def stripDoc (S : List String) (d : Doc) : Doc :=
  let kept := (docLocations d).filter (fun loc => ¬ locIdIn S loc)
  { d with meta := d.meta.set "locations" (.vlist (VList.ofList kept)) }

theorem locationRemover_eq_map (S : List String) (docs : List Doc) :
    locationRemover (some S) docs = docs.map (stripDoc S) := rfl

theorem runDeindexing_eq (S : List String) (st : Store)
    (hnd : (st.map Doc.id).Nodup) :
    runDeindexing S st =
      st.map (fun d => if matchesLocFilter S d then stripDoc S d else d) := by
  rw [runDeindexing, locationRemover_eq_map]
  rw [overwriteDocs_replace _ st
    (by
      intro d hd
      obtain ⟨y, hy, rfl⟩ := List.mem_map.mp hd
      exact ⟨y, (List.mem_filter.mp hy).1, rfl⟩)
    (by
      rw [List.map_map]
      rw [show (Doc.id ∘ stripDoc S) = Doc.id from rfl]
      exact hnd.sublist (List.Sublist.map Doc.id (List.filter_sublist st)))]
  apply List.map_congr_left
  intro e he
  rw [find?_strip_filter st hnd e he (stripDoc S) (fun _ => rfl) (matchesLocFilter S)]
  by_cases h : matchesLocFilter S e = true <;> simp [h]

/-- A compact sample store: one passage shared by sources `s1` and `s2`,
one passage only in `s2`. -/
def sampleStoreC8 : Store :=
  [ { id := "h1", content := "alpha", embedding := some [1],
      meta := .cons "locations" (.vlist (.cons (mkLocation "s1" ["A"])
        (.cons (mkLocation "s2" ["B"]) .nil))) .nil },
    { id := "h2", content := "beta", embedding := some [2],
      meta := .cons "locations" (.vlist (.cons (mkLocation "s2" ["C"]) .nil)) .nil } ]

theorem docLocations_stripDoc (S : List String) (d : Doc) :
    docLocations (stripDoc S d) =
      (docLocations d).filter (fun loc => ¬ locIdIn S loc) := by
  simp only [stripDoc, docLocations, VDict.lookup_set_self, VList.toList_ofList]

/-! ### Claim C8 — deindex removes exactly the named sources -/

/-- C8: deindexing a source-id set `S` rewrites the stored records
pointwise — ids, contents and embeddings unchanged, the location entries
whose id is in `S` dropped, all the other entries kept unchanged and in
order, records with no `S` reference untouched entirely — and afterwards
no stored record references any id in `S`. -/
theorem c8_deindex_removes_only_S (S : List String) (st : Store)
    (hnd : (st.map Doc.id).Nodup)
    (hwf : ∀ d ∈ st, ∀ loc ∈ docLocations d, (locId loc).isSome = true) :
    List.Forall₂ (fun d d2 =>
        d2.id = d.id ∧ d2.content = d.content ∧ d2.embedding = d.embedding ∧
        docLocations d2 = (docLocations d).filter (fun loc => ¬ locIdIn S loc) ∧
        ((∀ loc ∈ docLocations d, locIdIn S loc = false) → d2 = d))
      st (runDeindexing S st) ∧
    (∀ d2 ∈ runDeindexing S st, ∀ loc ∈ docLocations d2, locIdIn S loc = false) := by
  rw [runDeindexing_eq S st hnd]
  constructor
  · rw [List.forall₂_map_right_iff]
    rw [List.forall₂_same]
    intro e he
    by_cases h : matchesLocFilter S e = true
    · rw [if_pos h]
      refine ⟨rfl, rfl, rfl, docLocations_stripDoc S e, ?_⟩
      intro hall
      exfalso
      rw [matchesLocFilter] at h
      obtain ⟨loc, hloc, htrue⟩ := List.any_eq_true.mp h
      rw [hall loc hloc] at htrue
      simp at htrue
    · rw [if_neg h]
      refine ⟨rfl, rfl, rfl, ?_, fun _ => rfl⟩
      symm
      apply List.filter_eq_self.mpr
      intro loc hloc
      rw [matchesLocFilter] at h
      have hn : ¬ locIdIn S loc = true := fun hc =>
        h (List.any_eq_true.mpr ⟨loc, hloc, hc⟩)
      simpa using hn
  · intro d2 hd2 loc hloc
    obtain ⟨e, he, rfl⟩ := List.mem_map.mp hd2
    by_cases h : matchesLocFilter S e = true
    · rw [if_pos h] at hloc
      rw [docLocations_stripDoc] at hloc
      have hnl := (List.mem_filter.mp hloc).2
      simp only [decide_eq_true_eq] at hnl
      cases hb : locIdIn S loc
      · rfl
      · exact absurd hb hnl
    · rw [if_neg h] at hloc
      rw [matchesLocFilter] at h
      have hn : ¬ locIdIn S loc = true := fun hc =>
        h (List.any_eq_true.mpr ⟨loc, hloc, hc⟩)
      cases hb : locIdIn S loc
      · rfl
      · exact absurd hb hn

/-- Witness for C8 at a two-record store sharing source `s2`. -/
theorem c8_witness :
    (((sampleStoreC8.map Doc.id).Nodup ∧
      (∀ d ∈ sampleStoreC8, ∀ loc ∈ docLocations d, (locId loc).isSome = true)) ∧
     (List.Forall₂ (fun d d2 =>
        d2.id = d.id ∧ d2.content = d.content ∧ d2.embedding = d.embedding ∧
        docLocations d2 = (docLocations d).filter (fun loc => ¬ locIdIn ["s1"] loc) ∧
        ((∀ loc ∈ docLocations d, locIdIn ["s1"] loc = false) → d2 = d))
      sampleStoreC8 (runDeindexing ["s1"] sampleStoreC8) ∧
     (∀ d2 ∈ runDeindexing ["s1"] sampleStoreC8, ∀ loc ∈ docLocations d2,
        locIdIn ["s1"] loc = false))) :=
  ⟨⟨by decide, by decide⟩,
   c8_deindex_removes_only_S ["s1"] sampleStoreC8 (by decide) (by decide)⟩

/-! ### Characterising `DuplicateChecker` -/

theorem chunksGo_flatten {α : Type} (bs : Nat) : ∀ (l : List α) (cap : Nat)
    (cur : List α), (chunksGo bs cap cur l).flatten = cur.reverse ++ l := by
  intro l
  induction l with
  | nil =>
      intro cap cur
      rw [chunksGo]
      by_cases h : cur.isEmpty = true
      · rw [if_pos h]
        rw [List.isEmpty_iff.mp h]
        rfl
      · rw [if_neg h]
        simp
  | cons x rest ih =>
      intro cap cur
      cases cap with
      | zero =>
          rw [chunksGo]
          simp [ih (bs - 1) [x]]
      | succ cap2 =>
          rw [chunksGo]
          simp [ih cap2 (x :: cur)]

theorem chunks_flatten {α : Type} (bs : Nat) (l : List α) :
    (chunks bs l).flatten = l := by
  rw [chunks, chunksGo_flatten]
  rfl

theorem hit_pred_eq (st : Store) (b : List Doc) (d : Doc) (hd : d ∈ b) :
    (filterByIdIn st (b.map Doc.id)).any (fun e => e.id = d.id) =
      st.any (fun e => e.id = d.id) := by
  rw [filterByIdIn, List.any_filter]
  congr 1
  funext e
  by_cases h : e.id = d.id
  · simp only [h, decide_True, Bool.and_true]
    simp [List.elem_eq_mem]
    exact ⟨d, hd, rfl⟩
  · simp [h]

theorem duplicateChecker_eq (st : Store) (bs : Nat) (docs : List Doc) :
    duplicateChecker st bs docs =
      ((chunks bs docs).flatMap (fun b => filterByIdIn st (b.map Doc.id)),
       docs.filter (fun d => st.any (fun e => e.id = d.id)),
       docs.filter (fun d => ¬ st.any (fun e => e.id = d.id))) := by
  rw [duplicateChecker]
  have hgo : ∀ (Ls : List (List Doc)) (acc : List Doc × List Doc × List Doc),
      Ls.foldl (fun acc batch =>
        let existing := filterByIdIn st (batch.map Doc.id)
        (acc.1 ++ existing,
         acc.2.1 ++ batch.filter (fun d => existing.any (fun e => e.id = d.id)),
         acc.2.2 ++ batch.filter (fun d => ¬ existing.any (fun e => e.id = d.id))))
        acc =
      (acc.1 ++ Ls.flatMap (fun b => filterByIdIn st (b.map Doc.id)),
       acc.2.1 ++ (Ls.flatten).filter (fun d => st.any (fun e => e.id = d.id)),
       acc.2.2 ++ (Ls.flatten).filter (fun d => ¬ st.any (fun e => e.id = d.id))) := by
    intro Ls
    induction Ls with
    | nil => intro acc ; simp
    | cons b rest ih =>
        intro acc
        rw [List.foldl_cons, ih]
        have h1 : b.filter (fun d =>
            (filterByIdIn st (b.map Doc.id)).any (fun e => e.id = d.id)) =
            b.filter (fun d => st.any (fun e => e.id = d.id)) :=
          List.filter_congr (fun d hd => by rw [hit_pred_eq st b d hd])
        have h2 : b.filter (fun d =>
            ¬ (filterByIdIn st (b.map Doc.id)).any (fun e => e.id = d.id)) =
            b.filter (fun d => ¬ st.any (fun e => e.id = d.id)) :=
          List.filter_congr (fun d hd => by rw [hit_pred_eq st b d hd])
        simp only [List.flatMap_cons, List.flatten_cons, List.filter_append,
          List.append_assoc, h1, h2]
  rw [hgo]
  rw [chunks_flatten]
  rfl

theorem filter_id_singleton : ∀ (l : List Doc), (l.map Doc.id).Nodup →
    ∀ d ∈ l, l.filter (fun x => x.id = d.id) = [d] := by
  intro l
  induction l with
  | nil => intro _ d hd ; simp at hd
  | cons a rest ih =>
      intro hnd d hd
      rw [List.map_cons, List.nodup_cons] at hnd
      rcases List.mem_cons.mp hd with hd1 | hd2
      · subst hd1
        rw [List.filter_cons, if_pos (by simp)]
        rw [List.filter_eq_nil_iff.mpr (fun x hx => by
          simp only [decide_eq_true_eq]
          intro hc
          exact hnd.1 (hc ▸ List.mem_map_of_mem Doc.id hx))]
      · rw [List.filter_cons]
        rw [if_neg (by
          simp only [decide_eq_true_eq]
          intro hc
          exact hnd.1 (hc ▸ List.mem_map_of_mem Doc.id hd2))]
        exact ih hnd.2 d hd2

theorem find?_eq_filter_head {α : Type} : ∀ (l : List α) (p : α → Bool),
    l.find? p = (l.filter p).head?
  | [], _ => rfl
  | x :: rest, p => by
      by_cases h : p x = true
      · rw [List.find?_cons_of_pos _ h, List.filter_cons, if_pos h]
        rfl
      · rw [List.find?_cons_of_neg _ h, List.filter_cons, if_neg h]
        exact find?_eq_filter_head rest p

theorem mem_ids_iff_filter_ne (l : List Doc) (k : String) :
    k ∈ l.map Doc.id ↔ l.filter (fun e => e.id = k) ≠ [] := by
  rw [Ne, List.filter_eq_nil_iff]
  push_neg
  simp only [decide_eq_true_eq, List.mem_map]

theorem nodup_ids_of_unique_filter : ∀ (l : List Doc),
    (∀ k, (l.filter (fun e => e.id = k)).length ≤ 1) → (l.map Doc.id).Nodup := by
  intro l
  induction l with
  | nil => intro _ ; simp
  | cons a rest ih =>
      intro h
      rw [List.map_cons, List.nodup_cons]
      have ha := h a.id
      rw [List.filter_cons, if_pos (by simp)] at ha
      simp only [List.length_cons] at ha
      have hrest0 : rest.filter (fun e => e.id = a.id) = [] :=
        List.eq_nil_of_length_eq_zero (by omega)
      constructor
      · intro hc
        exact (mem_ids_iff_filter_ne rest a.id).mp hc hrest0
      · refine ih (fun k => ?_)
        have hk := h k
        rw [List.filter_cons] at hk
        by_cases hak : (decide (a.id = k)) = true
        · rw [if_pos hak] at hk
          simp only [List.length_cons] at hk
          omega
        · rw [if_neg hak] at hk
          exact hk

theorem retrieved_chunk_filter (st : Store) (ids : List String) (k : String) :
    (filterByIdIn st ids).filter (fun e => e.id = k) =
      if k ∈ ids then st.filter (fun e => e.id = k) else [] := by
  rw [filterByIdIn, List.filter_filter]
  by_cases h : k ∈ ids
  · rw [if_pos h]
    apply List.filter_congr
    intro e _
    by_cases he : e.id = k
    · simp [he, List.elem_eq_mem, h]
    · simp [he]
  · rw [if_neg h]
    apply List.filter_eq_nil_iff.mpr
    intro e _
    simp only [Bool.and_eq_true, decide_eq_true_eq, List.elem_eq_mem]
    rintro ⟨he, hc⟩
    exact h (he ▸ hc)

theorem retrieved_filter_eq_go (st : Store) (k : String) : ∀ (Ls : List (List Doc)),
    ((Ls.flatten.map Doc.id)).Nodup →
    (Ls.flatMap (fun b => filterByIdIn st (b.map Doc.id))).filter
        (fun e => e.id = k) =
      if k ∈ Ls.flatten.map Doc.id then st.filter (fun e => e.id = k) else [] := by
  intro Ls
  induction Ls with
  | nil => intro _ ; simp
  | cons b rest ih =>
      intro hnd
      rw [List.flatten_cons, List.map_append, List.nodup_append] at hnd
      rw [List.flatMap_cons, List.filter_append, retrieved_chunk_filter]
      rw [ih hnd.2.1]
      rw [List.flatten_cons, List.map_append]
      by_cases hb : k ∈ b.map Doc.id
      · rw [if_pos hb]
        rw [if_neg (fun hc => hnd.2.2 hb hc)]
        rw [if_pos (List.mem_append.mpr (Or.inl hb))]
        simp
      · rw [if_neg hb]
        rw [List.nil_append]
        by_cases hr : k ∈ rest.flatten.map Doc.id
        · rw [if_pos hr, if_pos (List.mem_append.mpr (Or.inr hr))]
        · rw [if_neg hr, if_neg (by
            intro hc
            rcases List.mem_append.mp hc with hc | hc
            · exact hb hc
            · exact hr hc)]

theorem retrieved_filter_eq (st : Store) (bs : Nat) (docs : List Doc)
    (hnd : (docs.map Doc.id).Nodup) (k : String) :
    ((chunks bs docs).flatMap (fun b => filterByIdIn st (b.map Doc.id))).filter
        (fun e => e.id = k) =
      if k ∈ docs.map Doc.id then st.filter (fun e => e.id = k) else [] := by
  have := retrieved_filter_eq_go st k (chunks bs docs)
    (by rw [chunks_flatten] ; exact hnd)
  rw [chunks_flatten] at this
  exact this

theorem newKeys_append : ∀ (a b s : List String),
    newKeys s (a ++ b) = newKeys s a ++ newKeys (a ++ s) b
  | [], _, _ => rfl
  | k :: ks, b, s => by
      simp only [List.cons_append, newKeys, List.append_eq]
      by_cases hk : k ∈ s
      · rw [if_pos hk, if_pos hk, newKeys_append ks b s]
        rw [newKeys_congr b (ks ++ s) (k :: (ks ++ s)) (fun x => by
          simp only [List.mem_cons]
          constructor
          · exact Or.inr
          · rintro (rfl | h)
            · exact List.mem_append.mpr (Or.inr hk)
            · exact h)]
      · rw [if_neg hk, if_neg hk, newKeys_append ks b (k :: s), List.cons_append]
        rw [newKeys_congr b (ks ++ (k :: s)) (k :: (ks ++ s)) (fun x => by
          simp only [List.mem_append, List.mem_cons]
          tauto)]

theorem newKeys_eq_nil_of_subset : ∀ (b s : List String), (∀ x ∈ b, x ∈ s) →
    newKeys s b = []
  | [], _, _ => rfl
  | k :: ks, s, h => by
      rw [newKeys, if_pos (h k (List.mem_cons_self k ks))]
      exact newKeys_eq_nil_of_subset ks s (fun x hx => h x (List.mem_cons_of_mem k hx))

theorem find?_map_of_id : ∀ (keys : List String) (G : String → Doc),
    (∀ k ∈ keys, (G k).id = k) → ∀ (x : String),
    (keys.map G).find? (fun d => d.id = x) = if x ∈ keys then some (G x) else none
  | [], _, _, _ => by simp
  | k :: ks, G, hG, x => by
      rw [List.map_cons]
      by_cases hkx : k = x
      · subst hkx
        rw [List.find?_cons_of_pos _ (by simp [hG k (List.mem_cons_self k ks)])]
        rw [if_pos (List.mem_cons_self k ks)]
      · rw [List.find?_cons_of_neg _ (by simp [hG k (List.mem_cons_self k ks), hkx])]
        rw [find?_map_of_id ks G (fun j hj => hG j (List.mem_cons_of_mem k hj)) x]
        by_cases hx : x ∈ ks
        · rw [if_pos hx, if_pos (List.mem_cons_of_mem k hx)]
        · rw [if_neg hx, if_neg (by
            intro hc
            rcases List.mem_cons.mp hc with hc | hc
            · exact hkx hc.symm
            · exact hx hc)]

theorem any_id_iff_mem (st : Store) (k : String) :
    st.any (fun e => e.id = k) = true ↔ k ∈ st.map Doc.id := by
  rw [List.any_eq_true]
  simp only [decide_eq_true_eq, List.mem_map]

theorem filter_id_len_le_one (l : List Doc) (hnd : (l.map Doc.id).Nodup)
    (k : String) : (l.filter (fun e => e.id = k)).length ≤ 1 := by
  by_cases hk : k ∈ l.map Doc.id
  · obtain ⟨e, he, rfl⟩ := List.mem_map.mp hk
    rw [filter_id_singleton l hnd e he]
    simp
  · rw [List.filter_eq_nil_iff.mpr (fun x hx => by
      simp only [decide_eq_true_eq]
      intro hc
      exact hk (hc ▸ List.mem_map_of_mem Doc.id hx))]
    simp

theorem mem_retrieved_mem_store (st : Store) (bs : Nat) (P : List Doc) :
    ∀ x ∈ (chunks bs P).flatMap (fun b => filterByIdIn st (b.map Doc.id)),
      x ∈ st := by
  intro x hx
  obtain ⟨b, _, hxb⟩ := List.mem_flatMap.mp hx
  exact (List.mem_filter.mp hxb).1

theorem hits_filter_eq (st : Store) (P : List Doc) (k : String) :
    (P.filter (fun d => st.any (fun e => e.id = d.id))).filter
        (fun d => d.id = k) =
      if st.any (fun e => e.id = k) then P.filter (fun d => d.id = k)
      else [] := by
  rw [List.filter_filter]
  by_cases hk : st.any (fun e => e.id = k) = true
  · rw [if_pos hk]
    apply List.filter_congr
    intro d _
    by_cases hd : d.id = k
    · simp [hd, hk]
    · simp [hd]
  · rw [if_neg hk]
    apply List.filter_eq_nil_iff.mpr
    intro d _
    simp only [Bool.and_eq_true, decide_eq_true_eq]
    rintro ⟨ha, hd⟩
    rw [ha] at hd
    exact hk hd

theorem mergeMetadataRun_find? (dss : List (List Doc)) (x : String) :
    (mergeMetadataRun dss).find? (fun d => d.id = x) =
      if x ∈ (dss.flatten).map Doc.id then
        some (mergeGroup ((dss.flatten).filter (fun d => d.id = x)))
      else none := by
  rw [mergeMetadataRun_eq]
  rw [find?_map_of_id _ _
    (fun k hk => mergeGroup_id_of_filter ((newKeys_mem _ _ k).mp hk).1) x]
  by_cases hx : x ∈ (dss.flatten).map Doc.id
  · rw [if_pos ((newKeys_mem _ _ x).mpr ⟨hx, by simp⟩), if_pos hx]
  · rw [if_neg (fun hc => hx ((newKeys_mem _ _ x).mp hc).1), if_neg hx]

theorem writeFailDocs_ok : ∀ (l : List Doc) (st : Store),
    (l.map Doc.id).Nodup → (∀ d ∈ l, ∀ e ∈ st, e.id ≠ d.id) →
    writeFailDocs st l = .ok (st ++ l)
  | [], st, _, _ => by simp [writeFailDocs] ; rfl
  | d :: rest, st, hnd, hdisj => by
      rw [List.map_cons, List.nodup_cons] at hnd
      rw [writeFailDocs, List.foldlM_cons]
      rw [if_neg (by
        intro hc
        obtain ⟨e, he, hid⟩ := List.any_eq_true.mp hc
        exact hdisj d (List.mem_cons_self d rest) e he
          (by simpa using hid))]
      have hrec := writeFailDocs_ok rest (st ++ [d]) hnd.2 (by
        intro d2 hd2 e he
        rcases List.mem_append.mp he with he1 | he2
        · exact hdisj d2 (List.mem_cons_of_mem d hd2) e he1
        · have : e = d := by simpa using he2
          subst this
          intro hc
          exact hnd.1 (hc ▸ List.mem_map_of_mem Doc.id hd2))
      rw [writeFailDocs] at hrec
      simp only [bind, Except.bind]
      rw [hrec]
      simp

theorem embedDocs_ids (embed : String → List Int) (l : List Doc) :
    (embedDocs embed l).map Doc.id = l.map Doc.id := by
  simp [embedDocs, List.map_map, Function.comp]

/-- The documents handed to the duplicate checker: converter, cleaner,
splitter, content-id assignment and the content merger (this is the
`docs4` intermediate of `runIndexing`). -/
def prepDocs (fresh : Nat → String) (sources : List Docx)
    (source_ids : Option (List String)) : List Doc :=
  mergeMetadataRun
    [setContentBasedIds (splitDocs (cleanDocs
      (docxToDocuments fresh sources source_ids .nil).1))]

theorem prepDocs_ids_nodup (fresh : Nat → String) (sources : List Docx)
    (source_ids : Option (List String)) :
    ((prepDocs fresh sources source_ids).map Doc.id).Nodup := by
  rw [prepDocs, mergeMetadataRun_ids]
  exact newKeys_nodup _ _

theorem indexTail_eq (embed : String → List Int) (bs : Nat) (st : Store)
    (P : List Doc) (hst : (st.map Doc.id).Nodup) (hP : (P.map Doc.id).Nodup) :
    writeFailDocs
      (overwriteDocs st (mergeMetadataRun
        [(duplicateChecker st bs P).1, (duplicateChecker st bs P).2.1]))
      (embedDocs embed (duplicateChecker st bs P).2.2) = .ok (
      st.map (fun e =>
        match P.find? (fun d => d.id = e.id) with
        | some d => { e with meta := recursively_merge_dicts e.meta d.meta }
        | none => e) ++
      (P.filter (fun d => ¬ st.any (fun e => e.id = d.id))).map
        (fun d => { d with embedding := some (embed d.content) })) := by
  have hdc1 : (duplicateChecker st bs P).1
      = (chunks bs P).flatMap (fun b => filterByIdIn st (b.map Doc.id)) := by
    rw [duplicateChecker_eq]
  have hdc2 : (duplicateChecker st bs P).2.1
      = P.filter (fun d => st.any (fun e => e.id = d.id)) := by
    rw [duplicateChecker_eq]
  have hdc3 : (duplicateChecker st bs P).2.2
      = P.filter (fun d => ¬ st.any (fun e => e.id = d.id)) := by
    rw [duplicateChecker_eq]
  rw [hdc1, hdc2, hdc3]
  have hflat : ([(chunks bs P).flatMap (fun b => filterByIdIn st (b.map Doc.id)),
      P.filter (fun d => st.any (fun e => e.id = d.id))] : List (List Doc)).flatten
      = (chunks bs P).flatMap (fun b => filterByIdIn st (b.map Doc.id)) ++
        P.filter (fun d => st.any (fun e => e.id = d.id)) := by
    simp
  have hover : overwriteDocs st (mergeMetadataRun
      [(chunks bs P).flatMap (fun b => filterByIdIn st (b.map Doc.id)),
       P.filter (fun d => st.any (fun e => e.id = d.id))]) =
      st.map (fun e =>
        match P.find? (fun d => d.id = e.id) with
        | some d => { e with meta := recursively_merge_dicts e.meta d.meta }
        | none => e) := by
    have hmnd : ((mergeMetadataRun
        [(chunks bs P).flatMap (fun b => filterByIdIn st (b.map Doc.id)),
         P.filter (fun d => st.any (fun e => e.id = d.id))]).map Doc.id).Nodup := by
      rw [mergeMetadataRun_ids]
      exact newKeys_nodup _ _
    have hsub : ∀ d ∈ mergeMetadataRun
        [(chunks bs P).flatMap (fun b => filterByIdIn st (b.map Doc.id)),
         P.filter (fun d => st.any (fun e => e.id = d.id))],
        ∃ e ∈ st, e.id = d.id := by
      intro d hd
      have hid : d.id ∈ (mergeMetadataRun
          [(chunks bs P).flatMap (fun b => filterByIdIn st (b.map Doc.id)),
           P.filter (fun d => st.any (fun e => e.id = d.id))]).map Doc.id :=
        List.mem_map_of_mem Doc.id hd
      rw [mergeMetadataRun_ids, hflat] at hid
      have hid2 := ((newKeys_mem _ _ d.id).mp hid).1
      rw [List.map_append] at hid2
      rcases List.mem_append.mp hid2 with hr | hh
      · obtain ⟨r, hrR, hrid⟩ := List.mem_map.mp hr
        exact ⟨r, mem_retrieved_mem_store st bs P r hrR, hrid⟩
      · obtain ⟨h2, hhH, hhid⟩ := List.mem_map.mp hh
        have hany := (List.mem_filter.mp hhH).2
        obtain ⟨e, he, heid⟩ := List.any_eq_true.mp hany
        simp only [decide_eq_true_eq] at heid
        exact ⟨e, he, by rw [heid, hhid]⟩
    rw [overwriteDocs_replace _ st hsub hmnd]
    apply List.map_congr_left
    intro e he
    rw [mergeMetadataRun_find?, hflat, List.filter_append]
    by_cases hep : e.id ∈ P.map Doc.id
    · obtain ⟨p, hpP, hpid⟩ := List.mem_map.mp hep
      have hRf : ((chunks bs P).flatMap
          (fun b => filterByIdIn st (b.map Doc.id))).filter
          (fun d => d.id = e.id) = [e] := by
        rw [retrieved_filter_eq st bs P hP e.id, if_pos hep]
        exact filter_id_singleton st hst e he
      have hPf : P.filter (fun d => d.id = e.id) = [p] := by
        rw [← hpid]
        exact filter_id_singleton P hP p hpP
      have hHf : (P.filter (fun d => st.any (fun e => e.id = d.id))).filter
          (fun d => d.id = e.id) = [p] := by
        rw [hits_filter_eq st P e.id,
          if_pos ((any_id_iff_mem st e.id).mpr (List.mem_map_of_mem Doc.id he))]
        exact hPf
      rw [hRf, hHf]
      rw [if_pos (by
        rw [List.map_append, List.mem_append]
        exact Or.inl ((mem_ids_iff_filter_ne _ e.id).mpr (by rw [hRf] ; simp)))]
      rw [find?_eq_filter_head, hPf]
      simp [mergeGroup]
    · have hRf : ((chunks bs P).flatMap
          (fun b => filterByIdIn st (b.map Doc.id))).filter
          (fun d => d.id = e.id) = [] := by
        rw [retrieved_filter_eq st bs P hP e.id, if_neg hep]
      have hPf : P.filter (fun d => d.id = e.id) = [] :=
        not_ne_iff.mp (fun hc => hep ((mem_ids_iff_filter_ne P e.id).mpr hc))
      have hHf : (P.filter (fun d => st.any (fun e => e.id = d.id))).filter
          (fun d => d.id = e.id) = [] := by
        rw [hits_filter_eq st P e.id]
        split
        · exact hPf
        · rfl
      rw [if_neg (by
        rw [List.map_append, List.mem_append]
        rintro (hr | hh)
        · exact absurd ((mem_ids_iff_filter_ne _ e.id).mp hr)
            (by rw [hRf] ; simp)
        · exact absurd ((mem_ids_iff_filter_ne _ e.id).mp hh)
            (by rw [hHf] ; simp))]
      rw [find?_eq_filter_head, hPf]
      simp
  rw [hover]
  apply writeFailDocs_ok
  · rw [embedDocs_ids]
    exact List.Nodup.sublist ((List.filter_sublist P).map Doc.id) hP
  · intro d hd e1 he1
    rw [embedDocs] at hd
    obtain ⟨m, hm, rfl⟩ := List.mem_map.mp hd
    obtain ⟨e0, he0, rfl⟩ := List.mem_map.mp he1
    have hnot := (List.mem_filter.mp hm).2
    simp only [decide_eq_true_eq] at hnot
    cases hfind : List.find? (fun d => decide (d.id = e0.id)) P <;>
      (intro hc
       exact hnot (List.any_eq_true.mpr ⟨e0, he0, by simpa using hc⟩))

/-- One `runIndexing` run on a store with distinct ids: a stored record
whose id reappears among the prepared documents gets its metadata merged
with that document (content and embedding kept), every other stored record
is untouched, and the prepared documents with fresh ids are embedded and
appended. -/
theorem runIndexing_master (embed : String → List Int) (fresh : Nat → String)
    (bs : Nat) (sources : List Docx) (sids : Option (List String)) (st : Store)
    (hnd : (st.map Doc.id).Nodup) :
    runIndexing embed fresh bs sources sids st = .ok (
      st.map (fun e =>
        match (prepDocs fresh sources sids).find? (fun d => d.id = e.id) with
        | some d => { e with meta := recursively_merge_dicts e.meta d.meta }
        | none => e) ++
      ((prepDocs fresh sources sids).filter
          (fun d => ¬ st.any (fun e => e.id = d.id))).map
        (fun d => { d with embedding := some (embed d.content) })) :=
  indexTail_eq embed bs st (prepDocs fresh sources sids) hnd
    (prepDocs_ids_nodup fresh sources sids)

theorem mergeMetadataRun_mem (dss : List (List Doc)) :
    ∀ p ∈ mergeMetadataRun dss, ∃ d0 ∈ dss.flatten,
      p.id = d0.id ∧ p.content = d0.content ∧ p.embedding = d0.embedding := by
  intro p hp
  rw [mergeMetadataRun_eq] at hp
  obtain ⟨k, hk, rfl⟩ := List.mem_map.mp hp
  have hkmem := ((newKeys_mem _ _ k).mp hk).1
  obtain ⟨d, hd, hdid⟩ := List.mem_map.mp hkmem
  cases hflt : (dss.flatten).filter (fun d2 => d2.id = k) with
  | nil =>
      exfalso
      have hmem : d ∈ (dss.flatten).filter (fun d2 => d2.id = k) :=
        List.mem_filter.mpr ⟨hd, by simp [hdid]⟩
      rw [hflt] at hmem
      simp at hmem
  | cons d0 rest =>
      have hd0 : d0 ∈ (dss.flatten).filter (fun d2 => d2.id = k) := by
        rw [hflt]
        exact List.mem_cons_self d0 rest
      exact ⟨d0, (List.mem_filter.mp hd0).1, rfl, rfl, rfl⟩

theorem setContentBasedIds_mem (l : List Doc) :
    ∀ d ∈ setContentBasedIds l, d.id = sha256_hex d.content := by
  intro d hd
  rw [setContentBasedIds] at hd
  obtain ⟨x, _, rfl⟩ := List.mem_map.mp hd
  rfl

theorem prepDocs_id_eq_hash (fresh : Nat → String) (sources : List Docx)
    (sids : Option (List String)) :
    ∀ p ∈ prepDocs fresh sources sids, p.id = sha256_hex p.content := by
  intro p hp
  rw [prepDocs] at hp
  obtain ⟨d0, hd0, hid, hcont, _⟩ := mergeMetadataRun_mem _ p hp
  have hd0m : d0 ∈ setContentBasedIds (splitDocs (cleanDocs
      (docxToDocuments fresh sources sids .nil).1)) := by
    simpa using hd0
  rw [hid, hcont]
  exact setContentBasedIds_mem _ d0 hd0m

/-- C7: the content-id step overwrites every document id with the
lowercase-hex SHA-256 of the UTF-8 encoded content; and this is an
invariant of the store — if every stored record's id is the hash of its
content, then after any successful indexing run every stored record's id
is still the hash of its content. -/
theorem c7_ids_are_content_hashes :
    (∀ docs : List Doc, setContentBasedIds docs =
      docs.map (fun d => { d with id := sha256_hex d.content })) ∧
    (∀ (embed : String → List Int) (fresh : Nat → String) (bs : Nat)
      (sources : List Docx) (sids : Option (List String)) (st st2 : Store),
      (st.map Doc.id).Nodup →
      (∀ e ∈ st, e.id = sha256_hex e.content) →
      runIndexing embed fresh bs sources sids st = .ok st2 →
      ∀ e ∈ st2, e.id = sha256_hex e.content) := by
  constructor
  · intro docs
    rfl
  · intro embed fresh bs sources sids st st2 hnd hinv hrun
    rw [runIndexing_master embed fresh bs sources sids st hnd] at hrun
    have hst2 : st2 = _ := (Except.ok.inj hrun).symm
    subst hst2
    intro e he
    rcases List.mem_append.mp he with h1 | h2
    · obtain ⟨e0, he0, rfl⟩ := List.mem_map.mp h1
      cases hfind : List.find? (fun d => decide (d.id = e0.id))
          (prepDocs fresh sources sids) <;>
        simp only [hfind] <;> exact hinv e0 he0
    · obtain ⟨p, hp, rfl⟩ := List.mem_map.mp h2
      have hpP := (List.mem_filter.mp hp).1
      have := prepDocs_id_eq_hash fresh sources sids p hpP
      simpa using this

theorem c7_witness :
    (((runIndexing sampleEmbed sampleFresh 10 [sampleDocx] (some ["s1"])
        []).toOption.getD []).headD default).id =
      sha256_hex (((runIndexing sampleEmbed sampleFresh 10 [sampleDocx]
        (some ["s1"]) []).toOption.getD []).headD default).content :=
  c7_ids_are_content_hashes.2 sampleEmbed sampleFresh 10 [sampleDocx]
    (some ["s1"]) []
    ((runIndexing sampleEmbed sampleFresh 10 [sampleDocx] (some ["s1"])
        []).toOption.getD [])
    (by simp) (by simp) (by rfl)
    (((runIndexing sampleEmbed sampleFresh 10 [sampleDocx] (some ["s1"])
        []).toOption.getD []).headD default)
    (by decide)

/-- C1 (corrected): ingest is NOT idempotent.  A first run on an empty
store writes the embedded prepared documents; a second identical run finds
every id already present and rewrites each record's metadata to the merge
of the metadata with itself — which duplicates every nonempty `locations`
list instead of leaving the store unchanged. -/
theorem c1_reingest_merges_meta_with_itself (embed : String → List Int)
    (fresh : Nat → String) (bs : Nat) (sources : List Docx)
    (sids : Option (List String)) :
    runIndexing embed fresh bs sources sids [] =
      .ok (embedDocs embed (prepDocs fresh sources sids)) ∧
    (∀ st1, runIndexing embed fresh bs sources sids [] = .ok st1 →
      runIndexing embed fresh bs sources sids st1 =
        .ok (st1.map (fun d =>
          { d with meta := recursively_merge_dicts d.meta d.meta }))) := by
  have hA : runIndexing embed fresh bs sources sids [] =
      .ok (embedDocs embed (prepDocs fresh sources sids)) := by
    rw [runIndexing_master embed fresh bs sources sids [] (by simp)]
    simp [embedDocs]
  refine ⟨hA, ?_⟩
  intro st1 h1
  rw [hA] at h1
  have hst1 : st1 = embedDocs embed (prepDocs fresh sources sids) :=
    (Except.ok.inj h1).symm
  subst hst1
  have hPnd := prepDocs_ids_nodup fresh sources sids
  have hnd1 : ((embedDocs embed (prepDocs fresh sources sids)).map
      Doc.id).Nodup := by
    rw [embedDocs_ids]
    exact hPnd
  rw [runIndexing_master embed fresh bs sources sids _ hnd1]
  have htail : (prepDocs fresh sources sids).filter
      (fun d => ¬ (embedDocs embed (prepDocs fresh sources sids)).any
        (fun e => e.id = d.id)) = [] := by
    apply List.filter_eq_nil_iff.mpr
    intro d hd
    simp only [decide_eq_true_eq, not_not]
    exact List.any_eq_true.mpr
      ⟨{ d with embedding := some (embed d.content) },
       List.mem_map_of_mem _ hd, by simp⟩
  rw [htail]
  simp only [List.map_nil, List.append_nil]
  congr 1
  apply List.map_congr_left
  intro e he
  rw [embedDocs] at he
  obtain ⟨p0, hp0, rfl⟩ := List.mem_map.mp he
  have hfind : List.find? (fun d => decide (d.id = p0.id))
      (prepDocs fresh sources sids) = some p0 := by
    rw [find?_eq_filter_head, filter_id_singleton _ hPnd p0 hp0]
    rfl
  simp [hfind]

set_option maxRecDepth 100000 in
/-- C1 counterexample: on a concrete one-paragraph upload, running the
indexing pipeline twice with identical inputs does NOT leave the store in
the state of a single run — the second run changes the stored record. -/
theorem c1_counterexample :
    (match runIndexing sampleEmbed sampleFresh 10 [sampleDocx]
        (some ["s1"]) [] with
     | .ok st1 =>
        match runIndexing sampleEmbed sampleFresh 10 [sampleDocx]
            (some ["s1"]) st1 with
        | .ok st2 => decide (st2 ≠ st1)
        | .error _ => false
     | .error _ => false) = true := by
  decide

theorem c1_witness :
    runIndexing sampleEmbed sampleFresh 10 [sampleDocx] (some ["s1"])
        ((runIndexing sampleEmbed sampleFresh 10 [sampleDocx] (some ["s1"])
            []).toOption.getD []) =
      .ok (((runIndexing sampleEmbed sampleFresh 10 [sampleDocx]
          (some ["s1"]) []).toOption.getD []).map (fun d =>
        { d with meta := recursively_merge_dicts d.meta d.meta })) :=
  (c1_reingest_merges_meta_with_itself sampleEmbed sampleFresh 10 [sampleDocx]
    (some ["s1"])).2 _ (by rfl)

/-- Well-formedness of a record's `locations` entry: absent or a list
(anything else is outside the data model the pipeline writes). -/
def locsWF (d : Doc) : Bool :=
  match d.meta.lookup "locations" with
  | none => true
  | some (.vlist _) => true
  | some _ => false

/-- The location ids held by a `locations` value list. -/
def vlocIds (L : VList) : List String := L.toList.filterMap locId

theorem locIdsOfDoc_eq (d : Doc) :
    locIdsOfDoc d =
      match d.meta.lookup "locations" with
      | some (.vlist L) => vlocIds L
      | _ => [] := by
  cases h : d.meta.lookup "locations" with
  | none => simp [locIdsOfDoc, docLocations, h]
  | some v => cases v <;> simp [locIdsOfDoc, docLocations, vlocIds, h]

theorem docxToDocuments_single (fresh : Nat → String) (f : Docx) (s : String)
    (m0 : VDict) :
    (docxToDocuments fresh [f] (some [s]) m0).1 =
      match DocxParser_parse f with
      | .ok secs => secs.map (sectionDoc m0 s)
      | .error _ => [] := by
  cases hp : DocxParser_parse f <;>
    simp [docxToDocuments, iter_sources, hp]

theorem conv_meta (fresh : Nat → String) (f : Docx) (s : String) :
    ∀ d ∈ (docxToDocuments fresh [f] (some [s]) .nil).1,
      ∃ hs, d.meta = VDict.cons "locations"
        (.vlist (.cons (mkLocation s hs) .nil)) .nil := by
  intro d hd
  rw [docxToDocuments_single] at hd
  cases hp : DocxParser_parse f with
  | ok secs =>
      rw [hp] at hd
      obtain ⟨sec, _, rfl⟩ := List.mem_map.mp hd
      exact ⟨sec.1, rfl⟩
  | error e =>
      rw [hp] at hd
      simp at hd

theorem docs3_meta_of_conv (l : List Doc) :
    ∀ d ∈ setContentBasedIds (splitDocs (cleanDocs l)),
      ∃ d0 ∈ l, d.meta = d0.meta := by
  intro d hd
  rw [setContentBasedIds] at hd
  obtain ⟨x1, hx1, rfl⟩ := List.mem_map.mp hd
  rw [splitDocs] at hx1
  obtain ⟨x2, hx2, hx1b⟩ := List.mem_flatMap.mp hx1
  obtain ⟨ws, _, rfl⟩ := List.mem_map.mp hx1b
  rw [cleanDocs] at hx2
  obtain ⟨x3, hx3, rfl⟩ := List.mem_map.mp hx2
  exact ⟨x3, hx3, rfl⟩

theorem foldl_merge_locs (s : String) : ∀ (ds : List Doc) (m : VDict)
    (L : VList),
    m.lookup "locations" = some (.vlist L) →
    (∀ d ∈ ds, ∃ hs, d.meta = VDict.cons "locations"
      (.vlist (.cons (mkLocation s hs) .nil)) .nil) →
    ∃ L2, (ds.foldl (fun acc e => recursively_merge_dicts acc e.meta)
        m).lookup "locations" = some (.vlist L2) ∧
      (vlocIds L2).count s = (vlocIds L).count s + ds.length
  | [], _, L, hm, _ => ⟨L, hm, by simp⟩
  | e :: ds, m, L, hm, hall => by
      obtain ⟨hs, hmeta⟩ := hall e (List.mem_cons_self e ds)
      have hlk : e.meta.lookup "locations" =
          some (.vlist (.cons (mkLocation s hs) .nil)) := by
        rw [hmeta]
        simp [VDict.lookup]
      have hm2 : (recursively_merge_dicts m e.meta).lookup "locations" =
          some (.vlist (L.append (.cons (mkLocation s hs) .nil))) := by
        rw [rmerge_lookup, hm, hlk]
        rfl
      rw [List.foldl_cons]
      obtain ⟨L2, hL2, hcount⟩ := foldl_merge_locs s ds
        (recursively_merge_dicts m e.meta)
        (L.append (.cons (mkLocation s hs) .nil)) hm2
        (fun d hd => hall d (List.mem_cons_of_mem e hd))
      refine ⟨L2, hL2, ?_⟩
      rw [hcount]
      have happ : vlocIds (VList.append L (.cons (mkLocation s hs) .nil)) =
          vlocIds L ++ [s] := by
        rw [vlocIds, VList.toList_append, List.filterMap_append]
        rfl
      rw [happ, List.count_append]
      simp
      omega

theorem mergeGroup_locs (s : String) (ds : List Doc) (k : String)
    (hmem : k ∈ ds.map Doc.id)
    (hall : ∀ d ∈ ds, ∃ hs, d.meta = VDict.cons "locations"
      (.vlist (.cons (mkLocation s hs) .nil)) .nil) :
    ∃ L2, (mergeGroup (ds.filter (fun d => d.id = k))).meta.lookup
        "locations" = some (.vlist L2) ∧
      (vlocIds L2).count s = ds.countP (fun d => d.id = k) := by
  obtain ⟨d, hd, hdid⟩ := List.mem_map.mp hmem
  cases hflt : ds.filter (fun d2 => d2.id = k) with
  | nil =>
      exfalso
      have hmem2 : d ∈ ds.filter (fun d2 => d2.id = k) :=
        List.mem_filter.mpr ⟨hd, by simp [hdid]⟩
      rw [hflt] at hmem2
      simp at hmem2
  | cons d0 rest =>
      have hsubmem : ∀ x ∈ d0 :: rest, x ∈ ds := by
        intro x hx
        rw [← hflt] at hx
        exact (List.mem_filter.mp hx).1
      obtain ⟨hs0, hm0⟩ := hall d0 (hsubmem d0 (List.mem_cons_self d0 rest))
      have hlk0 : d0.meta.lookup "locations" =
          some (.vlist (.cons (mkLocation s hs0) .nil)) := by
        rw [hm0]
        simp [VDict.lookup]
      obtain ⟨L2, hL2, hcount⟩ := foldl_merge_locs s rest d0.meta _ hlk0
        (fun x hx => hall x (hsubmem x (List.mem_cons_of_mem d0 hx)))
      refine ⟨L2, ?_, ?_⟩
      · have hmg : (mergeGroup (d0 :: rest)).meta =
            rest.foldl (fun acc e => recursively_merge_dicts acc e.meta)
              d0.meta := rfl
        rw [hmg, hL2]
      · rw [hcount, List.countP_eq_length_filter, hflt]
        have hone : vlocIds (VList.cons (mkLocation s hs0) VList.nil) =
            [s] := rfl
        rw [hone]
        simp
        omega

theorem mem_mergeMetadataRun (dss : List (List Doc)) (p : Doc)
    (hp : p ∈ mergeMetadataRun dss) :
    p = mergeGroup ((dss.flatten).filter (fun d => d.id = p.id)) ∧
      p.id ∈ (dss.flatten).map Doc.id := by
  rw [mergeMetadataRun_eq] at hp
  obtain ⟨k, hk, rfl⟩ := List.mem_map.mp hp
  have hkm := ((newKeys_mem _ _ k).mp hk).1
  have hid := mergeGroup_id_of_filter hkm
  rw [hid]
  exact ⟨rfl, hkm⟩

/-- C3 (corrected): after a single ingestion of a fresh source `s` into a
well-formed store with no prior `s` references, a stored passage carries
`s` in its locations once PER OCCURRENCE of its cleaned window among the
converted documents — exactly once only when the window text is unique,
and more than once when the same cleaned 100-word window occurs under
several heading paths. -/
theorem c3_s_count_equals_window_multiplicity (embed : String → List Int)
    (fresh : Nat → String) (bs : Nat) (f : Docx) (s : String)
    (st st2 : Store)
    (hnd : (st.map Doc.id).Nodup)
    (hwf : ∀ e ∈ st, locsWF e = true)
    (hno : ∀ e ∈ st, s ∉ locIdsOfDoc e)
    (hrun : runIndexing embed fresh bs [f] (some [s]) st = .ok st2) :
    ∀ e ∈ st2,
      (locIdsOfDoc e).count s =
        (setContentBasedIds (splitDocs (cleanDocs
          (docxToDocuments fresh [f] (some [s]) .nil).1))).countP
          (fun d => d.id = e.id) := by
  have hall : ∀ d ∈ setContentBasedIds (splitDocs (cleanDocs
      (docxToDocuments fresh [f] (some [s]) .nil).1)),
      ∃ hs, d.meta = VDict.cons "locations"
        (.vlist (.cons (mkLocation s hs) .nil)) .nil := by
    intro d hd
    obtain ⟨d0, hd0, hm⟩ := docs3_meta_of_conv _ d hd
    obtain ⟨hs, hm0⟩ := conv_meta fresh f s d0 hd0
    exact ⟨hs, by rw [hm, hm0]⟩
  rw [runIndexing_master embed fresh bs [f] (some [s]) st hnd] at hrun
  have hst2 : st2 = _ := (Except.ok.inj hrun).symm
  subst hst2
  intro e he
  rcases List.mem_append.mp he with h1 | h2
  · obtain ⟨e0, he0, rfl⟩ := List.mem_map.mp h1
    have hwf0 := hwf e0 he0
    cases hfind : List.find? (fun d => decide (d.id = e0.id))
        (prepDocs fresh [f] (some [s])) with
    | none =>
        show (locIdsOfDoc e0).count s =
          (setContentBasedIds (splitDocs (cleanDocs
            (docxToDocuments fresh [f] (some [s]) .nil).1))).countP
            (fun d => d.id = e0.id)
        have hPf : (prepDocs fresh [f] (some [s])).filter
            (fun d => d.id = e0.id) = [] := by
          have h := hfind
          rw [find?_eq_filter_head] at h
          exact List.head?_eq_none_iff.mp h
        have hnotP : e0.id ∉ (prepDocs fresh [f] (some [s])).map Doc.id :=
          fun hc => (mem_ids_iff_filter_ne _ _).mp hc hPf
        have hnotD3 : e0.id ∉ (setContentBasedIds (splitDocs (cleanDocs
            (docxToDocuments fresh [f] (some [s]) .nil).1))).map Doc.id := by
          intro hc
          apply hnotP
          rw [prepDocs, mergeMetadataRun_ids]
          refine (newKeys_mem _ _ _).mpr ⟨?_, by simp⟩
          simpa using hc
        have hD3f : (setContentBasedIds (splitDocs (cleanDocs
            (docxToDocuments fresh [f] (some [s]) .nil).1))).filter
            (fun d => d.id = e0.id) = [] :=
          not_ne_iff.mp (fun hc => hnotD3 ((mem_ids_iff_filter_ne _ _).mpr hc))
        rw [List.countP_eq_length_filter, hD3f]
        simp [List.count_eq_zero.mpr (hno e0 he0)]
    | some p =>
        have hfind2 := hfind
        rw [prepDocs, mergeMetadataRun_find?] at hfind2
        simp only [List.flatten_cons, List.flatten_nil, List.append_nil]
          at hfind2
        by_cases hmem : e0.id ∈ (setContentBasedIds (splitDocs (cleanDocs
            (docxToDocuments fresh [f] (some [s]) .nil).1))).map Doc.id
        · rw [if_pos hmem] at hfind2
          have hpg : mergeGroup ((setContentBasedIds (splitDocs (cleanDocs
              (docxToDocuments fresh [f] (some [s]) .nil).1))).filter
              (fun d => d.id = e0.id)) = p := Option.some.inj hfind2
          obtain ⟨L2, hpl, hpc⟩ := mergeGroup_locs s _ e0.id hmem hall
          rw [hpg] at hpl
          show (locIdsOfDoc
              { e0 with meta := recursively_merge_dicts e0.meta p.meta
              }).count s = _
          rw [locIdsOfDoc_eq]
          have hmeta : ({ e0 with
              meta := recursively_merge_dicts e0.meta p.meta } : Doc).meta
              = recursively_merge_dicts e0.meta p.meta := rfl
          rw [hmeta, rmerge_lookup, hpl]
          cases he0l : e0.meta.lookup "locations" with
          | none =>
              exact hpc
          | some v =>
              cases v with
              | vlist L0 =>
                  have happ : vlocIds (VList.append L0 L2) =
                      vlocIds L0 ++ vlocIds L2 := by
                    rw [vlocIds, vlocIds, vlocIds, VList.toList_append,
                      List.filterMap_append]
                  have heq0 : locIdsOfDoc e0 = vlocIds L0 := by
                    rw [locIdsOfDoc_eq, he0l]
                  have hz : (vlocIds L0).count s = 0 := by
                    apply List.count_eq_zero.mpr
                    rw [← heq0]
                    exact hno e0 he0
                  show (vlocIds (VList.append L0 L2)).count s = _
                  rw [happ, List.count_append, hz, Nat.zero_add]
                  exact hpc
              | prim x =>
                  exfalso
                  unfold locsWF at hwf0
                  rw [he0l] at hwf0
                  simp at hwf0
              | vtup t =>
                  exfalso
                  unfold locsWF at hwf0
                  rw [he0l] at hwf0
                  simp at hwf0
              | vdict m =>
                  exfalso
                  unfold locsWF at hwf0
                  rw [he0l] at hwf0
                  simp at hwf0
        · rw [if_neg hmem] at hfind2
          exact absurd hfind2 (by simp)
  · obtain ⟨p, hp, rfl⟩ := List.mem_map.mp h2
    have hpP := (List.mem_filter.mp hp).1
    rw [prepDocs] at hpP
    obtain ⟨hgroup, hmemf⟩ := mem_mergeMetadataRun _ p hpP
    simp only [List.flatten_cons, List.flatten_nil, List.append_nil]
      at hgroup hmemf
    obtain ⟨L2, hpl, hpc⟩ := mergeGroup_locs s _ p.id hmemf hall
    rw [← hgroup] at hpl
    show (locIdsOfDoc { p with embedding := some (embed p.content) }).count s
        = _
    rw [locIdsOfDoc_eq]
    have hmeta : ({ p with embedding := some (embed p.content) } : Doc).meta
        = p.meta := rfl
    rw [hmeta, hpl]
    exact hpc

/-- A document whose cleaned window text `A x` occurs under two different
heading paths: `["A"]` and `["B", "A"]`. -/
def c3docx : Docx := .ok
  [⟨"Heading 1", "A"⟩, ⟨"Normal", "x"⟩,
   ⟨"Heading 1", "B"⟩, ⟨"Heading 2", "A"⟩, ⟨"Normal", "x"⟩]

set_option maxRecDepth 100000 in
/-- C3 counterexample: on a concrete upload where the same cleaned window
occurs under two heading paths, the stored passage referencing `s1`
carries `s1` in its locations twice, not exactly once. -/
theorem c3_counterexample :
    (match runIndexing sampleEmbed sampleFresh 10 [c3docx]
        (some ["s1"]) [] with
     | .ok st2 => st2.any (fun e => 2 ≤ (locIdsOfDoc e).count "s1")
     | .error _ => false) = true := by
  decide

theorem c3_witness :
    (locIdsOfDoc (((runIndexing sampleEmbed sampleFresh 10 [c3docx]
        (some ["s1"]) []).toOption.getD []).headD default)).count "s1" =
      (setContentBasedIds (splitDocs (cleanDocs
        (docxToDocuments sampleFresh [c3docx] (some ["s1"])
          .nil).1))).countP
        (fun d => d.id = (((runIndexing sampleEmbed sampleFresh 10 [c3docx]
          (some ["s1"]) []).toOption.getD []).headD default).id) :=
  c3_s_count_equals_window_multiplicity sampleEmbed sampleFresh 10 c3docx
    "s1" [] _ (by simp) (by simp) (by simp) (by rfl)
    (((runIndexing sampleEmbed sampleFresh 10 [c3docx] (some ["s1"])
        []).toOption.getD []).headD default)
    (by decide)

end DocAudit
